import Mathlib

/-!
Verification of the authorization caching gateway (roles service).

This file gives a shallow embedding of the repository's core logic:

* the cache layer (`pkg/cache/cache.go`, the per-key variant, and the
  `MGET`/pipelined variant of the same package found in `src/unnamed/part_000`):
  `RemoveRoleFromAllCaches` and the cleanup-job worker `runRemoveRoleJob`;
* the roles service orchestrator (`src/unnamed/part_001`): the cache-aside read
  path `GetUserRoles` and the write operations;
* the upstream (Zitadel) client (`src/internal/middleware/roles_mw.go`):
  grant search/flattening, `RemoveRoleFromUser` grant selection, and the
  circuit-breaker trip predicate.

Stateful Go code is embedded as pure functions over an explicit environment
(`Env`) that fixes the outcome of every store interaction (SCAN pages, GET
results, TTL queries, SET results), so every code path of the Go functions is
realizable by choosing the environment.  Go `time.Duration` values are embedded
as `Int` (the go-redis TTL sentinels: `-1` = key exists but has no expiration,
`-2` = key missing; an expiration argument of `0` in `SET` means "no
expiration").  Machine-integer overflow is irrelevant at the values involved
(counters bounded by the number of cache keys), so counters are `Nat`.
-/

namespace Authz

/-- Cached role snapshot, from `rolesValue` in `pkg/cache/cache.go` (and the
identical struct in the variant file): a roles list, a fetch timestamp and a
version string.  Timestamps are abstract `Nat`s. -/
structure RolesValue where
  roles : List String
  fetchedAt : Nat
  version : String
  deriving DecidableEq, Repr

/-- Outcome of a GET (or of one value of an MGET) on the cache store:
a store error, a missing key (`redis.Nil` / `nil` in MGET), bytes that do not
unmarshal as a `rolesValue`, or a decoded value. -/
inductive GetRes
  | err (e : String)
  | missing
  | bad
  | good (v : RolesValue)
  deriving DecidableEq, Repr

/-- Environment fixing the store's behaviour during one scan pass: the SCAN
pages in order (`Except.error` = the SCAN call itself fails at that point; the
page after the last one returns cursor 0), the per-key GET outcome, the per-key
TTL query outcome (`.ok t` with `t = -1` for "no expiration", `t = -2` for
"key missing", positive `t` for a remaining TTL; `.error` for a store error),
and the per-key SET outcome (`none` = success). -/
structure Env where
  batches : List (Except String (List String))
  get : String → GetRes
  ttl : String → Except String Int
  setRes : String → Option String

/-- One write performed against the store: key, the value written, and the
expiration passed to SET (`0` = no expiration). -/
structure WriteRec where
  key : String
  val : RolesValue
  exp : Int
  deriving DecidableEq, Repr

/-- Result of a synchronous `RemoveRoleFromAllCaches` pass: the returned
updated count, the returned error (`none` = success), and the writes that were
performed. -/
structure PassResult where
  updated : Nat
  err : Option String
  writes : List WriteRec
  deriving Repr

/-- TTL reapplication rule of the per-key variant, transcribed from
`pkg/cache/cache.go` lines 113–119 (and 196–202): `if err == nil && ttl > 0`
the remaining TTL is reused, otherwise (including both go-redis sentinels and
TTL errors) the configured default TTL is used. -/
def ttlChoicePerkey (ttlRes : Except String Int) (defaultTTL : Int) : Int :=
  match ttlRes with
  | .ok t => if 0 < t then t else defaultTTL
  | .error _ => defaultTTL

/-- TTL reapplication rule of the MGET variant, transcribed from
`src/unnamed/part_000` lines 130–146 (and 236–251): on a successful TTL query a
negative sentinel (no expiration, or key missing) maps to expiration `0`
(write without expiration) and a non-negative TTL is reused; a TTL error maps
to the default TTL; finally `if expiration > 0` SET uses it, else SET uses 0. -/
def ttlChoiceMget (ttlRes : Except String Int) (defaultTTL : Int) : Int :=
  let e : Int :=
    match ttlRes with
    | .ok t => if t < 0 then 0 else t
    | .error _ => defaultTTL
  if 0 < e then e else 0

/-- Inner key loop of `RemoveRoleFromAllCaches` in `pkg/cache/cache.go`
(lines 88–124): GET each key (missing → skip, error → return), filter the
role out of the decoded value (bad JSON → skip), skip when nothing was removed
(length comparison, line 108), otherwise rewrite under the per-key TTL rule
(SET error → return) and count the update. -/
def perkeyKeys (env : Env) (role : String) (defTTL : Int) :
    List String → Nat → List WriteRec → Nat × Option String × List WriteRec
  | [], upd, ws => (upd, none, ws)
  | k :: ks, upd, ws =>
    match env.get k with
    | .err e => (upd, some e, ws)
    | .missing => perkeyKeys env role defTTL ks upd ws
    | .bad => perkeyKeys env role defTTL ks upd ws
    | .good v =>
      let newRoles := v.roles.filter fun r => r ≠ role
      if newRoles.length = v.roles.length then
        perkeyKeys env role defTTL ks upd ws
      else
        let exp := ttlChoicePerkey (env.ttl k) defTTL
        match env.setRes k with
        | some e => (upd, some e, ws)
        | none =>
          perkeyKeys env role defTTL ks (upd + 1)
            (ws ++ [⟨k, { v with roles := newRoles }, exp⟩])

/-- Cursor loop of `RemoveRoleFromAllCaches` in `pkg/cache/cache.go`
(lines 79–130): SCAN pages in order; a SCAN error returns the count so far. -/
def perkeyBatches (env : Env) (role : String) (defTTL : Int) :
    List (Except String (List String)) → Nat → List WriteRec → PassResult
  | [], upd, ws => ⟨upd, none, ws⟩
  | .error e :: _, upd, ws => ⟨upd, some e, ws⟩
  | .ok ks :: rest, upd, ws =>
    match perkeyKeys env role defTTL ks upd ws with
    | (upd2, some e, ws2) => ⟨upd2, some e, ws2⟩
    | (upd2, none, ws2) => perkeyBatches env role defTTL rest upd2 ws2

/-- Synchronous cleanup pass, per-key variant (`pkg/cache/cache.go`,
`RemoveRoleFromAllCaches`). -/
def RemoveRoleFromAllCaches_perkey (env : Env) (role : String) (defTTL : Int) : PassResult :=
  perkeyBatches env role defTTL env.batches 0 []

/-- First store error among the GETs of an MGET batch (the whole MGET fails),
modelling `MGet` in the variant file. -/
def mgetErr (env : Env) : List String → Option String
  | [] => none
  | k :: ks =>
    match env.get k with
    | .err e => some e
    | _ => mgetErr env ks

/-- First error among the SETs queued in a pipelined batch, modelling
`pipe.Exec`. -/
def pipeExecErr (env : Env) : List WriteRec → Option String
  | [] => none
  | w :: ws =>
    match env.setRes w.key with
    | some e => some e
    | none => pipeExecErr env ws

/-- Inner value loop of `RemoveRoleFromAllCaches` in `src/unnamed/part_000`
(lines 103–148): for each MGET value, skip `nil` and undecodable values,
filter the role out, and when the `removed` flag is set queue a write into the
pipeline under the MGET TTL rule and count the update.  The `.err` case is
unreachable when the surrounding MGET succeeded. -/
def mgetKeys (env : Env) (role : String) (defTTL : Int) :
    List String → Nat → List WriteRec → Nat × List WriteRec
  | [], upd, pipe => (upd, pipe)
  | k :: ks, upd, pipe =>
    match env.get k with
    | .err _ => mgetKeys env role defTTL ks upd pipe
    | .missing => mgetKeys env role defTTL ks upd pipe
    | .bad => mgetKeys env role defTTL ks upd pipe
    | .good v =>
      let newRoles := v.roles.filter fun r => r ≠ role
      if role ∈ v.roles then
        mgetKeys env role defTTL ks (upd + 1)
          (pipe ++ [⟨k, { v with roles := newRoles }, ttlChoiceMget (env.ttl k) defTTL⟩])
      else
        mgetKeys env role defTTL ks upd pipe

/-- Cursor loop of `RemoveRoleFromAllCaches` in `src/unnamed/part_000`
(lines 79–158): empty pages are skipped (`continue`), each non-empty page is
fetched with one MGET (error → return) and its rewrites are flushed with one
pipelined exec (error → return; the effects of a failed pipeline are not
recorded as writes). -/
def mgetBatches (env : Env) (role : String) (defTTL : Int) :
    List (Except String (List String)) → Nat → List WriteRec → PassResult
  | [], upd, ws => ⟨upd, none, ws⟩
  | .error e :: _, upd, ws => ⟨upd, some e, ws⟩
  | .ok ks :: rest, upd, ws =>
    if ks.isEmpty then
      mgetBatches env role defTTL rest upd ws
    else
      match mgetErr env ks with
      | some e => ⟨upd, some e, ws⟩
      | none =>
        match mgetKeys env role defTTL ks upd [] with
        | (upd2, pipe) =>
          match pipeExecErr env pipe with
          | some e => ⟨upd2, some e, ws⟩
          | none => mgetBatches env role defTTL rest upd2 (ws ++ pipe)

/-- Synchronous cleanup pass, MGET/pipelined variant (`src/unnamed/part_000`,
`RemoveRoleFromAllCaches`). -/
def RemoveRoleFromAllCaches_mget (env : Env) (role : String) (defTTL : Int) : PassResult :=
  mgetBatches env role defTTL env.batches 0 []

/-- Cleanup-job record, from `CleanupJobStatus` in the cache package.  The Go
zero `time.Time` in `FinishedAt` is embedded as `none`; the worker only ever
assigns `time.Now()`, embedded as `some 0` (the concrete instant is irrelevant
to every property stated here). -/
structure JobStatus where
  jobID : String
  role : String
  processed : Nat
  updated : Nat
  status : String
  startedAt : Nat
  finishedAt : Option Nat
  error : String
  deriving DecidableEq, Repr

/-- Terminal failure snapshot: `status = "failed"`, `error` and `finished_at`
set (`runRemoveRoleJob`, both variants). -/
def JobStatus.failWith (s : JobStatus) (e : String) : JobStatus :=
  { s with status := "failed", error := e, finishedAt := some 0 }

/-- Terminal success snapshot: `status = "done"`, `finished_at` set. -/
def JobStatus.finish (s : JobStatus) : JobStatus :=
  { s with status := "done", finishedAt := some 0 }

/-- Result of one cleanup-job worker run: the final job record, the sequence
of snapshots persisted by `update(...)` in order, the writes performed against
`roles:*` keys, and the worker's returned error. -/
structure JobResult where
  final : JobStatus
  snaps : List JobStatus
  writes : List WriteRec
  err : Option String
  deriving Repr

/-- Inner key loop of `runRemoveRoleJob` in `pkg/cache/cache.go`
(lines 164–215): `processed++` per scanned key; a missing key or undecodable
value persists a snapshot and skips; a GET or SET error persists a failed
snapshot and returns; a removal rewrites under the per-key TTL rule and counts
`updated++`; every 50 processed entries an intermediate snapshot is
persisted. -/
def jobPerkeyKeys (env : Env) (role : String) (defTTL : Int) :
    List String → JobStatus → List JobStatus → List WriteRec →
      JobStatus × List JobStatus × List WriteRec × Option String
  | [], st, snaps, ws => (st, snaps, ws, none)
  | k :: ks, st, snaps, ws =>
    let st1 := { st with processed := st.processed + 1 }
    match env.get k with
    | .err e =>
      let stF := st1.failWith e
      (stF, snaps ++ [stF], ws, some e)
    | .missing => jobPerkeyKeys env role defTTL ks st1 (snaps ++ [st1]) ws
    | .bad => jobPerkeyKeys env role defTTL ks st1 (snaps ++ [st1]) ws
    | .good v =>
      let newRoles := v.roles.filter fun r => r ≠ role
      if role ∈ v.roles then
        let exp := ttlChoicePerkey (env.ttl k) defTTL
        match env.setRes k with
        | some e =>
          let stF := st1.failWith e
          (stF, snaps ++ [stF], ws, some e)
        | none =>
          let st2 := { st1 with updated := st1.updated + 1 }
          let snaps2 := if st2.processed % 50 = 0 then snaps ++ [st2] else snaps
          jobPerkeyKeys env role defTTL ks st2 snaps2
            (ws ++ [⟨k, { v with roles := newRoles }, exp⟩])
      else
        let snaps2 := if st1.processed % 50 = 0 then snaps ++ [st1] else snaps
        jobPerkeyKeys env role defTTL ks st1 snaps2 ws

/-- Cursor loop of `runRemoveRoleJob` in `pkg/cache/cache.go` (lines 153–224):
a SCAN error persists a failed snapshot and returns; after each page a
snapshot is persisted; cursor exhaustion persists the `done` snapshot. -/
def jobPerkeyBatches (env : Env) (role : String) (defTTL : Int) :
    List (Except String (List String)) → JobStatus → List JobStatus → List WriteRec → JobResult
  | [], st, snaps, ws =>
    let stD := st.finish
    ⟨stD, snaps ++ [stD], ws, none⟩
  | .error e :: _, st, snaps, ws =>
    let stF := st.failWith e
    ⟨stF, snaps ++ [stF], ws, some e⟩
  | .ok ks :: rest, st, snaps, ws =>
    match jobPerkeyKeys env role defTTL ks st snaps ws with
    | (st2, snaps2, ws2, some e) => ⟨st2, snaps2, ws2, some e⟩
    | (st2, snaps2, ws2, none) => jobPerkeyBatches env role defTTL rest st2 (snaps2 ++ [st2]) ws2

/-- Cleanup-job worker, per-key variant (`pkg/cache/cache.go`,
`runRemoveRoleJob`): the initial `running` record is persisted first. -/
def runRemoveRoleJob_perkey (env : Env) (jobID role : String) (defTTL : Int) : JobResult :=
  let st0 : JobStatus := ⟨jobID, role, 0, 0, "running", 0, none, ""⟩
  jobPerkeyBatches env role defTTL env.batches st0 [st0] []

/-- Inner value loop of `runRemoveRoleJob` in `src/unnamed/part_000`
(lines 207–257): `processed++` per MGET value; a `nil` value persists a
snapshot only at a multiple of 50 and skips; a non-string or undecodable value
skips without the 50-entry check; a removal queues a pipelined write under the
MGET TTL rule and counts `updated++`. -/
def jobMgetKeys (env : Env) (role : String) (defTTL : Int) :
    List String → JobStatus → List JobStatus → List WriteRec →
      JobStatus × List JobStatus × List WriteRec
  | [], st, snaps, pipe => (st, snaps, pipe)
  | k :: ks, st, snaps, pipe =>
    let st1 := { st with processed := st.processed + 1 }
    match env.get k with
    | .err _ => jobMgetKeys env role defTTL ks st1 snaps pipe
    | .missing =>
      let snaps2 := if st1.processed % 50 = 0 then snaps ++ [st1] else snaps
      jobMgetKeys env role defTTL ks st1 snaps2 pipe
    | .bad => jobMgetKeys env role defTTL ks st1 snaps pipe
    | .good v =>
      let newRoles := v.roles.filter fun r => r ≠ role
      let st2 := if role ∈ v.roles then { st1 with updated := st1.updated + 1 } else st1
      let pipe2 :=
        if role ∈ v.roles then
          pipe ++ [⟨k, { v with roles := newRoles }, ttlChoiceMget (env.ttl k) defTTL⟩]
        else pipe
      let snaps2 := if st2.processed % 50 = 0 then snaps ++ [st2] else snaps
      jobMgetKeys env role defTTL ks st2 snaps2 pipe2

/-- Error with which a Redis-compatible store rejects an MGET carrying no
keys (wrong arity). -/
def mgetArityErr : String := "ERR wrong number of arguments for 'mget' command"

/-- Cursor loop of `runRemoveRoleJob` in `src/unnamed/part_000`
(lines 183–269): an empty final page breaks before the MGET; a SCAN, MGET or
pipeline-exec error persists a failed snapshot and returns; after each page
the pipeline is executed and a snapshot is persisted.  Unlike the synchronous
pass in the same file, this worker does not guard empty non-final pages: it
calls `MGet` with zero keys there (line 197), which a Redis-compatible store
rejects with an arity error, terminating the job as failed. -/
def jobMgetBatches (env : Env) (role : String) (defTTL : Int) :
    List (Except String (List String)) → JobStatus → List JobStatus → List WriteRec → JobResult
  | [], st, snaps, ws =>
    let stD := st.finish
    ⟨stD, snaps ++ [stD], ws, none⟩
  | .error e :: _, st, snaps, ws =>
    let stF := st.failWith e
    ⟨stF, snaps ++ [stF], ws, some e⟩
  | .ok ks :: rest, st, snaps, ws =>
    if ks.isEmpty && rest.isEmpty then
      let stD := st.finish
      ⟨stD, snaps ++ [stD], ws, none⟩
    else if ks.isEmpty then
      let stF := st.failWith mgetArityErr
      ⟨stF, snaps ++ [stF], ws, some mgetArityErr⟩
    else
      match mgetErr env ks with
      | some e =>
        let stF := st.failWith e
        ⟨stF, snaps ++ [stF], ws, some e⟩
      | none =>
        match jobMgetKeys env role defTTL ks st snaps [] with
        | (st2, snaps2, pipe) =>
          match pipeExecErr env pipe with
          | some e =>
            let stF := st2.failWith e
            ⟨stF, snaps2 ++ [stF], ws, some e⟩
          | none => jobMgetBatches env role defTTL rest st2 (snaps2 ++ [st2]) (ws ++ pipe)

/-- Cleanup-job worker, MGET/pipelined variant (`src/unnamed/part_000`,
`runRemoveRoleJob`). -/
def runRemoveRoleJob_mget (env : Env) (jobID role : String) (defTTL : Int) : JobResult :=
  let st0 : JobStatus := ⟨jobID, role, 0, 0, "running", 0, none, ""⟩
  jobMgetBatches env role defTTL env.batches st0 [st0] []

/-! Upstream (Zitadel) client, from the `zitadel` package in
`src/internal/middleware/roles_mw.go`. -/

/-- One grant of the `_search` response: `grantId`, `id` and `roleKeys`
(absent JSON fields decode to the empty string / empty list). -/
structure Grant where
  grantId : String
  id : String
  roleKeys : List String
  deriving DecidableEq, Repr

/-- Flattening of `GetUserRoles` (lines 415–418 of the client): concatenate
`roleKeys` across all returned grants, in order, without de-duplication. -/
def flattenGrantRoles (result : List Grant) : List String :=
  result.foldl (fun acc g => acc ++ g.roleKeys) []

/-- Grant identifier preference (lines 348–352 of the client): `grantId` when
non-empty, else `id`. -/
def grantChoice (g : Grant) : String :=
  if g.grantId ≠ "" then g.grantId else g.id

/-- Grant selection of `RemoveRoleFromUser` (lines 344–356 of the client):
for each returned grant containing `roleID`, remember its `grantId` when
non-empty, else its `id`; the outer loop has no break, so the last matching
grant wins; the initial value is the empty string. -/
def findGrantToDelete (result : List Grant) (roleID : String) : String :=
  result.foldl (fun acc g => if roleID ∈ g.roleKeys then grantChoice g else acc) ""

/-- Observable outcome of the client's `RemoveRoleFromUser` after a successful
grant search: either the NotFound error with no delete issued, or a DELETE
request for `userID`'s grant `grantID`. -/
inductive RemoveOutcome
  | notFound
  | deleteReq (userID grantID : String)
  deriving DecidableEq, Repr

/-- Post-search logic of the client's `RemoveRoleFromUser` (lines 343–375):
if the selected grant id is empty, fail with the not-found error and issue no
delete; otherwise issue the delete request for that grant id. -/
def RemoveRoleFromUser (result : List Grant) (roleID userID : String) : RemoveOutcome :=
  let g := findGrantToDelete result roleID
  if g = "" then .notFound else .deleteReq userID g

/-- Circuit breaker counters, mirroring `gobreaker.Counts`. -/
structure Counts where
  requests : Nat
  totalSuccesses : Nat
  totalFailures : Nat
  consecutiveSuccesses : Nat
  consecutiveFailures : Nat
  deriving DecidableEq, Repr

/-- Trip predicate from `NewHTTPClient` (lines 84–92 of the client): trip when
`ConsecutiveFailures >= 5`, or when `Requests >= 10` and
`float64(TotalFailures)/float64(Requests) > 0.5`.  The float comparison is
embedded as `2 * TotalFailures > Requests`, which is exactly equivalent for
all uint32 counter values (the quotient of two such values rounds to a float64
no closer to 0.5 than the true ratio at these magnitudes). -/
def readyToTrip (c : Counts) : Bool :=
  if 5 ≤ c.consecutiveFailures then true
  else if 10 ≤ c.requests ∧ 2 * c.totalFailures > c.requests then true
  else false

/-- Circuit breaker states. -/
inductive CBState
  | closed
  | opened
  | halfOpen
  deriving DecidableEq, Repr

/-- Circuit breaker: a state plus the counters of the current rolling
interval. -/
structure Breaker where
  state : CBState
  counts : Counts
  deriving DecidableEq, Repr

/-- Fresh counters (also the counters after a generation change). -/
def Counts.zero : Counts := ⟨0, 0, 0, 0, 0⟩

/-- Request accounting before the wrapped call runs. -/
def Counts.onRequest (c : Counts) : Counts := { c with requests := c.requests + 1 }

/-- Success accounting of the breaker counters. -/
def Counts.onSuccess (c : Counts) : Counts :=
  { c with totalSuccesses := c.totalSuccesses + 1,
           consecutiveSuccesses := c.consecutiveSuccesses + 1,
           consecutiveFailures := 0 }

/-- Failure accounting of the breaker counters. -/
def Counts.onFailure (c : Counts) : Counts :=
  { c with totalFailures := c.totalFailures + 1,
           consecutiveFailures := c.consecutiveFailures + 1,
           consecutiveSuccesses := 0 }

/-- Outcome of one `Execute`: rejected fast (no network request issued), or
the wrapped call ran with the given failure flag. -/
inductive ExecOutcome
  | rejected
  | ran (failed : Bool)
  deriving DecidableEq, Repr

/-- Modelled from the spec: the state machine of the `gobreaker` dependency
wrapping `doRequest` (§4.2 of the spec) — the library itself is not part of
this repository.  Closed passes requests, counts them, and trips to Open when
`readyToTrip` holds after a failure (counts reset on the state change); Open
fails fast with `CircuitOpen` without running the wrapped call; HalfOpen lets
a probe through, closing on success and reopening on failure.  Time (interval
rollover and the open-state timeout) is abstracted: the counters are the ones
of the current rolling interval. -/
def Breaker.execute (b : Breaker) (opFails : Bool) : Breaker × ExecOutcome :=
  match b.state with
  | .opened => (b, .rejected)
  | .closed =>
    let c := b.counts.onRequest
    if opFails then
      let c2 := c.onFailure
      if readyToTrip c2 then ({ state := .opened, counts := Counts.zero }, .ran true)
      else ({ state := .closed, counts := c2 }, .ran true)
    else ({ state := .closed, counts := c.onSuccess }, .ran false)
  | .halfOpen =>
    if opFails then ({ state := .opened, counts := Counts.zero }, .ran true)
    else ({ state := .closed, counts := Counts.zero }, .ran false)

/-- Run a sequence of calls through the breaker; each list element is the
failure flag the wrapped call would produce if it were issued. -/
def Breaker.run (b : Breaker) : List Bool → Breaker × List ExecOutcome
  | [] => (b, [])
  | f :: fs =>
    let p := b.execute f
    let q := p.1.run fs
    (q.1, p.2 :: q.2)

/-- Breaker as built by `NewHTTPClient`: closed, zero counters. -/
def Breaker.fresh : Breaker := ⟨.closed, Counts.zero⟩

/-! Roles service orchestrator, from `src/unnamed/part_001`.  Upstream and
store responses are supplied as explicit arguments (the oracle view of one
call), so each operation is a pure function of what its collaborators
answered. -/

/-- Cache mutation performed by a service write operation. -/
inductive CacheEffect
  | invalidate (userID : String)
  | startJob (role : String)
  deriving DecidableEq, Repr

/-- Service.AssignRole (lines 72–77): call upstream `AssignRoleToUser`; on
error return it with no cache mutation; on success invalidate the user's
entry and return the invalidation's result. -/
def Service.AssignRole (upstream : Except String Unit) (invRes : Except String Unit)
    (userID : String) : Except String Unit × List CacheEffect :=
  match upstream with
  | .error e => (.error e, [])
  | .ok _ => (invRes, [.invalidate userID])

/-- Service.AssignRolesToUser (lines 79–87): an empty role list is a no-op
returning success; otherwise as `AssignRole`. -/
def Service.AssignRolesToUser (upstream : Except String Unit) (invRes : Except String Unit)
    (userID : String) (roleIDs : List String) : Except String Unit × List CacheEffect :=
  if roleIDs.isEmpty then (.ok (), [])
  else
    match upstream with
    | .error e => (.error e, [])
    | .ok _ => (invRes, [.invalidate userID])

/-- Service.RemoveRoleFromUser (lines 97–102): upstream first, then
invalidate. -/
def Service.RemoveRoleFromUser (upstream : Except String Unit) (invRes : Except String Unit)
    (userID : String) : Except String Unit × List CacheEffect :=
  match upstream with
  | .error e => (.error e, [])
  | .ok _ => (invRes, [.invalidate userID])

/-- Service.DeleteRole (lines 89–95): upstream `DeleteRole` first; on success
start the cleanup job and return the job-start error (the job id is
discarded).  A failed job start performs no cache mutation. -/
def Service.DeleteRole (upstream : Except String Unit) (startRes : Except String String)
    (roleID : String) : Except String Unit × List CacheEffect :=
  match upstream with
  | .error e => (.error e, [])
  | .ok _ =>
    match startRes with
    | .error e => (.error e, [])
    | .ok _ => (.ok (), [.startJob roleID])

/-- Service.GetUserRoles (lines 26–62), single-caller view: the cache GET
result is `.ok (some roles)` on a hit, `.ok none` on a miss, `.error` on a
store error; `fetched` is the result of the retried upstream fetch; `setRes`
is the store's answer to the cache fill, which the code discards (`_ =`).
Returns the call's result and whether the upstream fetch path was taken. -/
def Service.GetUserRoles (cacheGet : Except String (Option (List String)))
    (fetched : Except String (List String)) (setRes : Except String Unit) :
    Except String (List String) × Bool :=
  match cacheGet with
  | .ok (some roles) => (.ok roles, false)
  | _ =>
    match fetched with
    | .error e => (.error e, true)
    | .ok roles => (.ok roles, true)

/-- Cache key of a user's role snapshot. -/
def rolesKey (userID : String) : String := "roles:" ++ userID

/-- SetRoles (`pkg/cache/cache.go` lines 66–73): store the snapshot with
`version = "v1"` and `fetched_at = now`; a `ttl` of zero means the configured
default TTL. -/
def SetRoles (userID : String) (roles : List String) (ttl : Int) (defaultTTL : Int)
    (now : Nat) : WriteRec :=
  ⟨rolesKey userID, ⟨roles, now, "v1"⟩, if ttl = 0 then defaultTTL else ttl⟩

/-! Helper lemmas. -/

/-- Filtering a present element out of a list changes its length (the skip
condition of the per-key pass is equivalent to the `removed` flag of the other
functions). -/
theorem length_filter_ne_of_mem {role : String} {l : List String} (h : role ∈ l) :
    (l.filter fun r => r ≠ role).length ≠ l.length := by
  intro hlen
  have hsub : (l.filter fun r => r ≠ role).Sublist l := List.filter_sublist l
  have heq : (l.filter fun r => r ≠ role) = l := hsub.eq_of_length hlen
  have hmem := (List.filter_eq_self.mp heq) role h
  simp at hmem

/-- Filtering an absent element is the identity. -/
theorem filter_ne_eq_self_of_not_mem {role : String} {l : List String} (h : role ∉ l) :
    (l.filter fun r => r ≠ role) = l :=
  List.filter_eq_self.mpr fun a ha => decide_eq_true fun hEq => h (hEq ▸ ha)

/-- Fold of the grant-selection loop over grants none of which contains the
role leaves the accumulator unchanged. -/
theorem grantFold_no_match (roleID : String) :
    ∀ (result : List Grant) (acc : String),
      (∀ g ∈ result, roleID ∉ g.roleKeys) →
      result.foldl (fun a g => if roleID ∈ g.roleKeys then grantChoice g else a) acc = acc := by
  intro result
  induction result with
  | nil => intro acc _; rfl
  | cons g gs ih =>
    intro acc h
    simp only [List.foldl_cons]
    rw [if_neg (h g (List.mem_cons_self g gs))]
    exact ih acc fun g' hg' => h g' (List.mem_cons_of_mem _ hg')

/-- Fold of the grant-selection loop: either no grant contains the role and
the accumulator is returned, or the result decomposes around the LAST
matching grant, whose chosen identifier the fold returns. -/
theorem grantFold_last (roleID : String) :
    ∀ (result : List Grant) (acc : String),
      ((∀ g ∈ result, roleID ∉ g.roleKeys) ∧
        result.foldl (fun a g => if roleID ∈ g.roleKeys then grantChoice g else a) acc = acc) ∨
      ∃ pre g suf, result = pre ++ g :: suf ∧ roleID ∈ g.roleKeys ∧
        (∀ g' ∈ suf, roleID ∉ g'.roleKeys) ∧
        result.foldl (fun a g => if roleID ∈ g.roleKeys then grantChoice g else a) acc =
          grantChoice g := by
  intro result
  induction result with
  | nil =>
    intro acc
    exact Or.inl ⟨fun g hg => absurd hg (List.not_mem_nil g), rfl⟩
  | cons g0 gs ih =>
    intro acc
    simp only [List.foldl_cons]
    by_cases hm : roleID ∈ g0.roleKeys
    · rw [if_pos hm]
      rcases ih (grantChoice g0) with ⟨hnone, heq⟩ | ⟨pre, g, suf, heq, hmem, hsuf, hfold⟩
      · exact Or.inr ⟨[], g0, gs, rfl, hm, hnone, heq⟩
      · exact Or.inr ⟨g0 :: pre, g, suf, by rw [heq]; rfl, hmem, hsuf, hfold⟩
    · rw [if_neg hm]
      rcases ih acc with ⟨hnone, heq⟩ | ⟨pre, g, suf, heq, hmem, hsuf, hfold⟩
      · refine Or.inl ⟨?_, heq⟩
        intro g' hg'
        rcases List.mem_cons.mp hg' with h1 | h1
        · rw [h1]
          exact hm
        · exact hnone g' h1
      · exact Or.inr ⟨g0 :: pre, g, suf, by rw [heq]; rfl, hmem, hsuf, hfold⟩

/-- The grant-selection fold over a list decomposed around its last matching
grant returns that grant's chosen identifier. -/
theorem findGrantToDelete_last (roleID : String) (pre : List Grant) (g : Grant)
    (suf : List Grant) (hmem : roleID ∈ g.roleKeys)
    (hsuf : ∀ g' ∈ suf, roleID ∉ g'.roleKeys) :
    findGrantToDelete (pre ++ g :: suf) roleID = grantChoice g := by
  unfold findGrantToDelete
  rw [List.foldl_append]
  simp only [List.foldl_cons]
  rw [if_pos hmem]
  exact grantFold_no_match roleID suf (grantChoice g) hsuf

/-- Environment with a single cached entry `roles:u1` holding roles
`["admin", "editor"]` whose TTL query answers the go-redis "no expiration"
sentinel `-1`; every SET succeeds. -/
def envNoExpiry : Env :=
  { batches := [.ok ["roles:u1"]]
    get := fun k => if k = "roles:u1" then .good ⟨["admin", "editor"], 7, "v1"⟩ else .missing
    ttl := fun _ => .ok (-1)
    setRes := fun _ => none }

/-- Environment with a single cached entry under an arbitrary TTL-query
answer; every SET succeeds. -/
def singleEnv (k : String) (v : RolesValue) (t : Except String Int) : Env :=
  { batches := [.ok [k]]
    get := fun q => if q = k then .good v else .missing
    ttl := fun _ => t
    setRes := fun _ => none }

/-- Every write of the per-key inner loop carries the per-key TTL rule's
expiration for its key. -/
theorem perkeyKeys_exp (env : Env) (role : String) (d : Int) :
    ∀ (ks : List String) (upd : Nat) (ws : List WriteRec),
      (∀ w ∈ ws, w.exp = ttlChoicePerkey (env.ttl w.key) d) →
      ∀ w ∈ (perkeyKeys env role d ks upd ws).2.2,
        w.exp = ttlChoicePerkey (env.ttl w.key) d := by
  intro ks
  induction ks with
  | nil =>
    intro upd ws h
    simpa [perkeyKeys] using h
  | cons k ks ih =>
    intro upd ws h
    cases hg : env.get k with
    | err e => simpa [perkeyKeys, hg] using h
    | missing =>
      simp only [perkeyKeys, hg]
      exact ih upd ws h
    | bad =>
      simp only [perkeyKeys, hg]
      exact ih upd ws h
    | good v =>
      simp only [perkeyKeys, hg]
      by_cases hl : (v.roles.filter fun r => r ≠ role).length = v.roles.length
      · rw [if_pos hl]
        exact ih upd ws h
      · rw [if_neg hl]
        cases hs : env.setRes k with
        | some e => simpa [hs] using h
        | none =>
          simp only [hs]
          apply ih
          intro w hw
          rcases List.mem_append.mp hw with hw1 | hw2
          · exact h w hw1
          · rw [List.mem_singleton.mp hw2]

/-- Every write of the per-key cursor loop carries the per-key TTL rule's
expiration for its key. -/
theorem perkeyBatches_exp (env : Env) (role : String) (d : Int) :
    ∀ (bs : List (Except String (List String))) (upd : Nat) (ws : List WriteRec),
      (∀ w ∈ ws, w.exp = ttlChoicePerkey (env.ttl w.key) d) →
      ∀ w ∈ (perkeyBatches env role d bs upd ws).writes,
        w.exp = ttlChoicePerkey (env.ttl w.key) d := by
  intro bs
  induction bs with
  | nil =>
    intro upd ws h
    simpa [perkeyBatches] using h
  | cons b bs ih =>
    intro upd ws h
    cases b with
    | error e => simpa [perkeyBatches] using h
    | ok ks =>
      simp only [perkeyBatches]
      rcases hk : perkeyKeys env role d ks upd ws with ⟨upd2, e?, ws2⟩
      have hws2 : ∀ w ∈ ws2, w.exp = ttlChoicePerkey (env.ttl w.key) d := by
        have h2 := perkeyKeys_exp env role d ks upd ws h
        rw [hk] at h2
        exact h2
      cases e? with
      | some e => simpa [hk] using hws2
      | none =>
        simp only [hk]
        exact ih upd2 ws2 hws2

/-- Every write queued by the MGET inner loop carries the MGET TTL rule's
expiration for its key. -/
theorem mgetKeys_exp (env : Env) (role : String) (d : Int) :
    ∀ (ks : List String) (upd : Nat) (pipe : List WriteRec),
      (∀ w ∈ pipe, w.exp = ttlChoiceMget (env.ttl w.key) d) →
      ∀ w ∈ (mgetKeys env role d ks upd pipe).2,
        w.exp = ttlChoiceMget (env.ttl w.key) d := by
  intro ks
  induction ks with
  | nil =>
    intro upd pipe h
    simpa [mgetKeys] using h
  | cons k ks ih =>
    intro upd pipe h
    cases hg : env.get k with
    | err e =>
      simp only [mgetKeys, hg]
      exact ih upd pipe h
    | missing =>
      simp only [mgetKeys, hg]
      exact ih upd pipe h
    | bad =>
      simp only [mgetKeys, hg]
      exact ih upd pipe h
    | good v =>
      simp only [mgetKeys, hg]
      by_cases hm : role ∈ v.roles
      · rw [if_pos hm]
        apply ih
        intro w hw
        rcases List.mem_append.mp hw with hw1 | hw2
        · exact h w hw1
        · rw [List.mem_singleton.mp hw2]
      · rw [if_neg hm]
        exact ih upd pipe h

/-- Every write of the MGET cursor loop carries the MGET TTL rule's
expiration for its key. -/
theorem mgetBatches_exp (env : Env) (role : String) (d : Int) :
    ∀ (bs : List (Except String (List String))) (upd : Nat) (ws : List WriteRec),
      (∀ w ∈ ws, w.exp = ttlChoiceMget (env.ttl w.key) d) →
      ∀ w ∈ (mgetBatches env role d bs upd ws).writes,
        w.exp = ttlChoiceMget (env.ttl w.key) d := by
  intro bs
  induction bs with
  | nil =>
    intro upd ws h
    simpa [mgetBatches] using h
  | cons b bs ih =>
    intro upd ws h
    cases b with
    | error e => simpa [mgetBatches] using h
    | ok ks =>
      simp only [mgetBatches]
      by_cases hemp : ks.isEmpty
      · rw [if_pos hemp]
        exact ih upd ws h
      · rw [if_neg hemp]
        cases hme : mgetErr env ks with
        | some e => simpa using h
        | none =>
          simp only []
          rcases hk : mgetKeys env role d ks upd [] with ⟨upd2, pipe⟩
          have hpipe : ∀ w ∈ pipe, w.exp = ttlChoiceMget (env.ttl w.key) d := by
            have h2 := mgetKeys_exp env role d ks upd [] (by intro w hw; cases hw)
            rw [hk] at h2
            exact h2
          cases hpe : pipeExecErr env pipe with
          | some e => simpa using h
          | none =>
            apply ih
            intro w hw
            rcases List.mem_append.mp hw with hw1 | hw2
            · exact h w hw1
            · exact hpipe w hw2

/-- Every write of the per-key worker's inner loop carries the per-key TTL
rule's expiration for its key. -/
theorem jobPerkeyKeys_exp (env : Env) (role : String) (d : Int) :
    ∀ (ks : List String) (st : JobStatus) (snaps : List JobStatus) (ws : List WriteRec),
      (∀ w ∈ ws, w.exp = ttlChoicePerkey (env.ttl w.key) d) →
      ∀ w ∈ (jobPerkeyKeys env role d ks st snaps ws).2.2.1,
        w.exp = ttlChoicePerkey (env.ttl w.key) d := by
  intro ks
  induction ks with
  | nil =>
    intro st snaps ws h
    simpa [jobPerkeyKeys] using h
  | cons k ks ih =>
    intro st snaps ws h
    cases hg : env.get k with
    | err e => simpa [jobPerkeyKeys, hg] using h
    | missing =>
      simp only [jobPerkeyKeys, hg]
      exact ih _ _ ws h
    | bad =>
      simp only [jobPerkeyKeys, hg]
      exact ih _ _ ws h
    | good v =>
      simp only [jobPerkeyKeys, hg]
      by_cases hm : role ∈ v.roles
      · rw [if_pos hm]
        cases hs : env.setRes k with
        | some e => simpa [hs] using h
        | none =>
          simp only [hs]
          apply ih
          intro w hw
          rcases List.mem_append.mp hw with hw1 | hw2
          · exact h w hw1
          · rw [List.mem_singleton.mp hw2]
      · rw [if_neg hm]
        exact ih _ _ ws h

/-- Every write of the per-key worker carries the per-key TTL rule's
expiration for its key. -/
theorem jobPerkeyBatches_exp (env : Env) (role : String) (d : Int) :
    ∀ (bs : List (Except String (List String))) (st : JobStatus)
      (snaps : List JobStatus) (ws : List WriteRec),
      (∀ w ∈ ws, w.exp = ttlChoicePerkey (env.ttl w.key) d) →
      ∀ w ∈ (jobPerkeyBatches env role d bs st snaps ws).writes,
        w.exp = ttlChoicePerkey (env.ttl w.key) d := by
  intro bs
  induction bs with
  | nil =>
    intro st snaps ws h
    simpa [jobPerkeyBatches] using h
  | cons b bs ih =>
    intro st snaps ws h
    cases b with
    | error e => simpa [jobPerkeyBatches] using h
    | ok ks =>
      simp only [jobPerkeyBatches]
      rcases hk : jobPerkeyKeys env role d ks st snaps ws with ⟨st2, snaps2, ws2, e?⟩
      have hws2 : ∀ w ∈ ws2, w.exp = ttlChoicePerkey (env.ttl w.key) d := by
        have h2 := jobPerkeyKeys_exp env role d ks st snaps ws h
        rw [hk] at h2
        exact h2
      cases e? with
      | some e => simpa [hk] using hws2
      | none =>
        simp only [hk]
        exact ih st2 (snaps2 ++ [st2]) ws2 hws2

/-- Every write queued by the MGET worker's inner loop carries the MGET TTL
rule's expiration for its key. -/
theorem jobMgetKeys_exp (env : Env) (role : String) (d : Int) :
    ∀ (ks : List String) (st : JobStatus) (snaps : List JobStatus) (pipe : List WriteRec),
      (∀ w ∈ pipe, w.exp = ttlChoiceMget (env.ttl w.key) d) →
      ∀ w ∈ (jobMgetKeys env role d ks st snaps pipe).2.2,
        w.exp = ttlChoiceMget (env.ttl w.key) d := by
  intro ks
  induction ks with
  | nil =>
    intro st snaps pipe h
    simpa [jobMgetKeys] using h
  | cons k ks ih =>
    intro st snaps pipe h
    cases hg : env.get k with
    | err e =>
      simp only [jobMgetKeys, hg]
      exact ih _ _ pipe h
    | missing =>
      simp only [jobMgetKeys, hg]
      exact ih _ _ pipe h
    | bad =>
      simp only [jobMgetKeys, hg]
      exact ih _ _ pipe h
    | good v =>
      simp only [jobMgetKeys, hg]
      by_cases hm : role ∈ v.roles
      · simp only [if_pos hm]
        apply ih
        intro w hw
        rcases List.mem_append.mp hw with hw1 | hw2
        · exact h w hw1
        · rw [List.mem_singleton.mp hw2]
      · simp only [if_neg hm]
        exact ih _ _ pipe h

/-- Every write of the MGET worker carries the MGET TTL rule's expiration for
its key. -/
theorem jobMgetBatches_exp (env : Env) (role : String) (d : Int) :
    ∀ (bs : List (Except String (List String))) (st : JobStatus)
      (snaps : List JobStatus) (ws : List WriteRec),
      (∀ w ∈ ws, w.exp = ttlChoiceMget (env.ttl w.key) d) →
      ∀ w ∈ (jobMgetBatches env role d bs st snaps ws).writes,
        w.exp = ttlChoiceMget (env.ttl w.key) d := by
  intro bs
  induction bs with
  | nil =>
    intro st snaps ws h
    simpa [jobMgetBatches] using h
  | cons b bs ih =>
    intro st snaps ws h
    cases b with
    | error e => simpa [jobMgetBatches] using h
    | ok ks =>
      simp only [jobMgetBatches]
      by_cases hbe : (ks.isEmpty && bs.isEmpty) = true
      · rw [if_pos hbe]
        simpa using h
      · rw [if_neg hbe]
        by_cases hemp : ks.isEmpty = true
        · rw [if_pos hemp]
          simpa using h
        · rw [if_neg hemp]
          cases hme : mgetErr env ks with
          | some e => simpa using h
          | none =>
            simp only []
            rcases hk : jobMgetKeys env role d ks st snaps [] with ⟨st2, snaps2, pipe⟩
            have hpipe : ∀ w ∈ pipe, w.exp = ttlChoiceMget (env.ttl w.key) d := by
              have h2 := jobMgetKeys_exp env role d ks st snaps [] (by intro w hw; cases hw)
              rw [hk] at h2
              exact h2
            cases hpe : pipeExecErr env pipe with
            | some e => simpa using h
            | none =>
              apply ih
              intro w hw
              rcases List.mem_append.mp hw with hw1 | hw2
              · exact h w hw1
              · exact hpipe w hw2

/-- On a single-entry store whose value contains the role, the per-key pass
rewrites the entry whatever the TTL query answered — including both go-redis
sentinels — with the per-key rule's expiration, and counts one update. -/
theorem perkey_single_writes (k : String) (v : RolesValue) (t : Except String Int)
    (role : String) (d : Int) (h : role ∈ v.roles) :
    RemoveRoleFromAllCaches_perkey (singleEnv k v t) role d =
      ⟨1, none, [⟨k, { v with roles := v.roles.filter fun r => r ≠ role },
        ttlChoicePerkey t d⟩]⟩ := by
  have hc : ¬ ∀ a ∈ v.roles, ¬ a = role := fun hall => hall role h rfl
  simp [RemoveRoleFromAllCaches_perkey, singleEnv, perkeyBatches, perkeyKeys,
    length_filter_ne_of_mem h, hc]

/-- On a single-entry store whose value contains the role, the MGET pass
rewrites the entry whatever the TTL query answered, with the MGET rule's
expiration, and counts one update. -/
theorem mget_single_writes (k : String) (v : RolesValue) (t : Except String Int)
    (role : String) (d : Int) (h : role ∈ v.roles) :
    RemoveRoleFromAllCaches_mget (singleEnv k v t) role d =
      ⟨1, none, [⟨k, { v with roles := v.roles.filter fun r => r ≠ role },
        ttlChoiceMget t d⟩]⟩ := by
  simp [RemoveRoleFromAllCaches_mget, singleEnv, mgetBatches, mgetKeys, mgetErr,
    pipeExecErr, h]

/-- Store-error detector on a GET outcome. -/
def GetRes.isErr : GetRes → Bool
  | .err _ => true
  | _ => false

/-- SCAN page success detector. -/
def scanOk : Except String (List String) → Bool
  | .ok _ => true
  | .error _ => false

/-- With no GET errors the modelled MGET succeeds. -/
theorem mgetErr_none (env : Env) (hget : ∀ k, (env.get k).isErr = false) :
    ∀ ks : List String, mgetErr env ks = none := by
  intro ks
  induction ks with
  | nil => rfl
  | cons k ks ih =>
    have hk := hget k
    cases hg : env.get k with
    | err e => rw [hg] at hk; cases hk
    | missing => simpa [mgetErr, hg] using ih
    | bad => simpa [mgetErr, hg] using ih
    | good v => simpa [mgetErr, hg] using ih

/-- If the role occurs in no stored value, the per-key worker's inner loop
performs no write, counts no update, changes no status, and reports no
error. -/
theorem jobPerkeyKeys_noop (env : Env) (role : String) (d : Int)
    (hget : ∀ k, (env.get k).isErr = false)
    (habs : ∀ k v, env.get k = .good v → role ∉ v.roles) :
    ∀ (ks : List String) (st : JobStatus) (snaps : List JobStatus) (ws : List WriteRec),
      (jobPerkeyKeys env role d ks st snaps ws).1.updated = st.updated ∧
      (jobPerkeyKeys env role d ks st snaps ws).1.status = st.status ∧
      (jobPerkeyKeys env role d ks st snaps ws).2.2.1 = ws ∧
      (jobPerkeyKeys env role d ks st snaps ws).2.2.2 = none := by
  intro ks
  induction ks with
  | nil =>
    intro st snaps ws
    exact ⟨rfl, rfl, rfl, rfl⟩
  | cons k ks ih =>
    intro st snaps ws
    cases hg : env.get k with
    | err e =>
      have hk := hget k
      rw [hg] at hk
      cases hk
    | missing =>
      simp only [jobPerkeyKeys, hg]
      exact ih _ _ ws
    | bad =>
      simp only [jobPerkeyKeys, hg]
      exact ih _ _ ws
    | good v =>
      simp only [jobPerkeyKeys, hg]
      rw [if_neg (habs k v hg)]
      exact ih _ _ ws

/-- If the role occurs in no stored value and the scan succeeds, the per-key
worker finishes with status done, the starting updated count, no writes and no
error. -/
theorem jobPerkeyBatches_noop (env : Env) (role : String) (d : Int)
    (hget : ∀ k, (env.get k).isErr = false)
    (habs : ∀ k v, env.get k = .good v → role ∉ v.roles) :
    ∀ (bs : List (Except String (List String))), (∀ b ∈ bs, scanOk b = true) →
      ∀ (st : JobStatus) (snaps : List JobStatus) (ws : List WriteRec),
      (jobPerkeyBatches env role d bs st snaps ws).final.status = "done" ∧
      (jobPerkeyBatches env role d bs st snaps ws).final.updated = st.updated ∧
      (jobPerkeyBatches env role d bs st snaps ws).writes = ws ∧
      (jobPerkeyBatches env role d bs st snaps ws).err = none := by
  intro bs
  induction bs with
  | nil =>
    intro _ st snaps ws
    exact ⟨rfl, rfl, rfl, rfl⟩
  | cons b bs ih =>
    intro hb st snaps ws
    cases b with
    | error e =>
      have := hb (.error e) (List.mem_cons_self _ _)
      cases this
    | ok ks =>
      simp only [jobPerkeyBatches]
      rcases hk : jobPerkeyKeys env role d ks st snaps ws with ⟨st2, snaps2, ws2, e?⟩
      have hkey := jobPerkeyKeys_noop env role d hget habs ks st snaps ws
      rw [hk] at hkey
      obtain ⟨hu, hs, hw, he⟩ := hkey
      simp only at hu hs hw he
      subst he
      simp only []
      have hrec := ih (fun b hbb => hb b (List.mem_cons_of_mem _ hbb)) st2 (snaps2 ++ [st2]) ws2
      exact ⟨hrec.1, hrec.2.1.trans hu, hrec.2.2.1.trans hw, hrec.2.2.2⟩

/-- If the role occurs in no stored value, the MGET worker's inner loop queues
no write, counts no update, and changes no status. -/
theorem jobMgetKeys_noop (env : Env) (role : String) (d : Int)
    (habs : ∀ k v, env.get k = .good v → role ∉ v.roles) :
    ∀ (ks : List String) (st : JobStatus) (snaps : List JobStatus) (pipe : List WriteRec),
      (jobMgetKeys env role d ks st snaps pipe).1.updated = st.updated ∧
      (jobMgetKeys env role d ks st snaps pipe).1.status = st.status ∧
      (jobMgetKeys env role d ks st snaps pipe).2.2 = pipe := by
  intro ks
  induction ks with
  | nil =>
    intro st snaps pipe
    exact ⟨rfl, rfl, rfl⟩
  | cons k ks ih =>
    intro st snaps pipe
    cases hg : env.get k with
    | err e =>
      simp only [jobMgetKeys, hg]
      exact ih _ _ pipe
    | missing =>
      simp only [jobMgetKeys, hg]
      exact ih _ _ pipe
    | bad =>
      simp only [jobMgetKeys, hg]
      exact ih _ _ pipe
    | good v =>
      simp only [jobMgetKeys, hg]
      rw [if_neg (habs k v hg), if_neg (habs k v hg)]
      exact ih _ _ pipe

/-- SCAN page sequences on which the MGET worker never issues a zero-key
MGET: every empty page is the final one. -/
def noZeroKeyMget : List (Except String (List String)) → Prop
  | [] => True
  | .ok ks :: rest => (ks ≠ [] ∨ rest = []) ∧ noZeroKeyMget rest
  | .error _ :: rest => noZeroKeyMget rest

/-- If the role occurs in no stored value, the scan succeeds, and no
intermediate page is empty, the MGET worker finishes with status done, the
starting updated count, no writes and no error. -/
theorem jobMgetBatches_noop (env : Env) (role : String) (d : Int)
    (hget : ∀ k, (env.get k).isErr = false)
    (habs : ∀ k v, env.get k = .good v → role ∉ v.roles) :
    ∀ (bs : List (Except String (List String))), (∀ b ∈ bs, scanOk b = true) →
      noZeroKeyMget bs →
      ∀ (st : JobStatus) (snaps : List JobStatus) (ws : List WriteRec),
      (jobMgetBatches env role d bs st snaps ws).final.status = "done" ∧
      (jobMgetBatches env role d bs st snaps ws).final.updated = st.updated ∧
      (jobMgetBatches env role d bs st snaps ws).writes = ws ∧
      (jobMgetBatches env role d bs st snaps ws).err = none := by
  intro bs
  induction bs with
  | nil =>
    intro _ _ st snaps ws
    exact ⟨rfl, rfl, rfl, rfl⟩
  | cons b bs ih =>
    intro hb hnz st snaps ws
    cases b with
    | error e =>
      have := hb (.error e) (List.mem_cons_self _ _)
      cases this
    | ok ks =>
      cases ks with
      | nil =>
        cases bs with
        | nil =>
          simp only [jobMgetBatches]
          rw [if_pos (by simp)]
          exact ⟨rfl, rfl, rfl, rfl⟩
        | cons b2 bs2 =>
          rcases hnz.1 with hne | hbs
          · exact absurd rfl hne
          · cases hbs
      | cons k ks2 =>
        simp only [jobMgetBatches]
        rw [if_neg (by simp), if_neg (by simp)]
        rw [mgetErr_none env hget (k :: ks2)]
        rcases hk : jobMgetKeys env role d (k :: ks2) st snaps [] with ⟨st2, snaps2, pipe⟩
        have hkey := jobMgetKeys_noop env role d habs (k :: ks2) st snaps []
        rw [hk] at hkey
        obtain ⟨hu, hs, hp⟩ := hkey
        simp only at hu hs hp
        subst hp
        simp only [pipeExecErr, List.append_nil]
        have hrec := ih (fun b hbb => hb b (List.mem_cons_of_mem _ hbb)) hnz.2 st2
          (snaps2 ++ [st2]) ws
        exact ⟨hrec.1, hrec.2.1.trans hu, hrec.2.2.1, hrec.2.2.2⟩

/-- Without the empty-page restriction, the MGET worker on an absent role
still performs no write and counts no update, but may end failed instead of
done (zero-key MGET of an empty non-final page). -/
theorem jobMgetBatches_noop_weak (env : Env) (role : String) (d : Int)
    (hget : ∀ k, (env.get k).isErr = false)
    (habs : ∀ k v, env.get k = .good v → role ∉ v.roles) :
    ∀ (bs : List (Except String (List String))), (∀ b ∈ bs, scanOk b = true) →
      ∀ (st : JobStatus) (snaps : List JobStatus) (ws : List WriteRec),
      ((jobMgetBatches env role d bs st snaps ws).final.status = "done" ∨
        (jobMgetBatches env role d bs st snaps ws).final.status = "failed") ∧
      (jobMgetBatches env role d bs st snaps ws).final.updated = st.updated ∧
      (jobMgetBatches env role d bs st snaps ws).writes = ws := by
  intro bs
  induction bs with
  | nil =>
    intro _ st snaps ws
    exact ⟨Or.inl rfl, rfl, rfl⟩
  | cons b bs ih =>
    intro hb st snaps ws
    cases b with
    | error e =>
      have := hb (.error e) (List.mem_cons_self _ _)
      cases this
    | ok ks =>
      cases ks with
      | nil =>
        cases bs with
        | nil =>
          simp only [jobMgetBatches]
          rw [if_pos (by simp)]
          exact ⟨Or.inl rfl, rfl, rfl⟩
        | cons b2 bs2 =>
          simp only [jobMgetBatches]
          rw [if_neg (by simp), if_pos (by simp)]
          exact ⟨Or.inr rfl, rfl, rfl⟩
      | cons k ks2 =>
        simp only [jobMgetBatches]
        rw [if_neg (by simp), if_neg (by simp)]
        rw [mgetErr_none env hget (k :: ks2)]
        rcases hk : jobMgetKeys env role d (k :: ks2) st snaps [] with ⟨st2, snaps2, pipe⟩
        have hkey := jobMgetKeys_noop env role d habs (k :: ks2) st snaps []
        rw [hk] at hkey
        obtain ⟨hu, hs, hp⟩ := hkey
        simp only at hu hs hp
        subst hp
        simp only [pipeExecErr, List.append_nil]
        have hrec := ih (fun b hbb => hb b (List.mem_cons_of_mem _ hbb)) st2 (snaps2 ++ [st2]) ws
        exact ⟨hrec.1, hrec.2.1.trans hu, hrec.2.2⟩

/-- Environment with two cached entries, both holding roles not including
"admin". -/
def envAbsent : Env :=
  { batches := [.ok ["roles:a", "roles:b"]]
    get := fun _ => .good ⟨["x", "y"], 3, "v1"⟩
    ttl := fun _ => .ok 60
    setRes := fun _ => none }

/-- Environment whose scan yields an empty non-final page before a page with
one key; the store itself is healthy and no value contains "admin". -/
def envEmptyMidPage : Env :=
  { batches := [.ok [], .ok ["roles:a"]]
    get := fun _ => .good ⟨["x", "y"], 3, "v1"⟩
    ttl := fun _ => .ok 60
    setRes := fun _ => none }

/-- C8 is false as stated for the MGET worker: on a healthy store holding no
"admin" anywhere whose scan returns an empty non-final page, part_000's
worker issues a zero-key MGET there, which the store rejects, and the job
terminates with status "failed" (though still updated = 0 and no writes),
while the per-key worker terminates "done". -/
theorem C8_counterexample_empty_scan_page :
    (runRemoveRoleJob_mget envEmptyMidPage "j1" "admin" 300).final.status = "failed" ∧
    (runRemoveRoleJob_mget envEmptyMidPage "j1" "admin" 300).final.updated = 0 ∧
    (runRemoveRoleJob_mget envEmptyMidPage "j1" "admin" 300).writes = [] ∧
    (runRemoveRoleJob_mget envEmptyMidPage "j1" "admin" 300).err = some mgetArityErr ∧
    (runRemoveRoleJob_perkey envEmptyMidPage "j1" "admin" 300).final.status = "done" := by
  exact ⟨by decide, by decide, by decide, by decide, by decide⟩

/-- C8 amended: a cleanup job for a role occurring in no cached snapshot
performs no write and counts updated = 0 in both worker variants; the per-key
worker always terminates with status done, and the MGET worker terminates
done provided no non-final scan page is empty — on an empty non-final page
its zero-key MGET fails and the job ends failed, still with updated = 0 and
every cached entry unchanged. -/
theorem C8_amended_cleanup_noop (env : Env) (jobID role : String) (d : Int)
    (hb : ∀ b ∈ env.batches, scanOk b = true)
    (hget : ∀ k, (env.get k).isErr = false)
    (habs : ∀ k v, env.get k = .good v → role ∉ v.roles) :
    (runRemoveRoleJob_perkey env jobID role d).final.status = "done" ∧
    (runRemoveRoleJob_perkey env jobID role d).final.updated = 0 ∧
    (runRemoveRoleJob_perkey env jobID role d).writes = [] ∧
    (runRemoveRoleJob_mget env jobID role d).final.updated = 0 ∧
    (runRemoveRoleJob_mget env jobID role d).writes = [] ∧
    ((runRemoveRoleJob_mget env jobID role d).final.status = "done" ∨
      (runRemoveRoleJob_mget env jobID role d).final.status = "failed") ∧
    (noZeroKeyMget env.batches →
      (runRemoveRoleJob_mget env jobID role d).final.status = "done") := by
  have h1 := jobPerkeyBatches_noop env role d hget habs env.batches hb
    ⟨jobID, role, 0, 0, "running", 0, none, ""⟩
    [⟨jobID, role, 0, 0, "running", 0, none, ""⟩] []
  have h2 := jobMgetBatches_noop_weak env role d hget habs env.batches hb
    ⟨jobID, role, 0, 0, "running", 0, none, ""⟩
    [⟨jobID, role, 0, 0, "running", 0, none, ""⟩] []
  refine ⟨h1.1, h1.2.1, h1.2.2.1, h2.2.1, h2.2.2, h2.1, ?_⟩
  intro hnz
  have h3 := jobMgetBatches_noop env role d hget habs env.batches hb hnz
    ⟨jobID, role, 0, 0, "running", 0, none, ""⟩
    [⟨jobID, role, 0, 0, "running", 0, none, ""⟩] []
  exact h3.1

/-- C8 witness: the amended no-op theorem applied to a concrete store holding
no "admin" role anywhere, whose scan has no empty non-final page. -/
theorem C8_amended_witness :
    (runRemoveRoleJob_perkey envAbsent "j1" "admin" 300).final.status = "done" ∧
    (runRemoveRoleJob_perkey envAbsent "j1" "admin" 300).final.updated = 0 ∧
    (runRemoveRoleJob_perkey envAbsent "j1" "admin" 300).writes = [] ∧
    (runRemoveRoleJob_mget envAbsent "j1" "admin" 300).final.updated = 0 ∧
    (runRemoveRoleJob_mget envAbsent "j1" "admin" 300).writes = [] ∧
    (runRemoveRoleJob_mget envAbsent "j1" "admin" 300).final.status = "done" := by
  have h := C8_amended_cleanup_noop envAbsent "j1" "admin" 300
    (by decide)
    (fun _ => rfl)
    (fun k v h => by cases h; decide)
  exact ⟨h.1, h.2.1, h.2.2.1, h.2.2.2.1, h.2.2.2.2.1, h.2.2.2.2.2.2 ⟨Or.inr rfl, trivial⟩⟩

/-- Per-snapshot invariant of a cleanup-job record: `processed ≥ updated`
(≥ 0 holds by the `Nat` embedding), a failed snapshot carries a non-empty
error, and a terminal snapshot has `finished_at` set. -/
def JobStatus.snapOK (s : JobStatus) : Prop :=
  s.updated ≤ s.processed ∧
  (s.status = "failed" → s.error ≠ "") ∧
  ((s.status = "done" ∨ s.status = "failed") → s.finishedAt.isSome = true)

/-- Progress order between two job snapshots: processed and updated both
non-decreasing. -/
def progressLE (a b : JobStatus) : Prop :=
  a.processed ≤ b.processed ∧ a.updated ≤ b.updated

theorem progressLE_refl (a : JobStatus) : progressLE a a :=
  ⟨Nat.le_refl _, Nat.le_refl _⟩

theorem progressLE_trans {a b c : JobStatus} (h1 : progressLE a b) (h2 : progressLE b c) :
    progressLE a c :=
  ⟨h1.1.trans h2.1, h1.2.trans h2.2⟩

theorem snapOK_running {st : JobStatus} (h : st.status = "running")
    (hup : st.updated ≤ st.processed) : st.snapOK := by
  refine ⟨hup, fun hf => ?_, fun hf => ?_⟩
  · rw [h] at hf
    exact absurd hf (by decide)
  · rcases hf with hf | hf <;> rw [h] at hf <;> exact absurd hf (by decide)

theorem snapOK_failWith {st : JobStatus} {e : String} (he : e ≠ "")
    (hup : st.updated ≤ st.processed) : (st.failWith e).snapOK :=
  ⟨hup, fun _ => he, fun _ => rfl⟩

theorem snapOK_finish {st : JobStatus} (hup : st.updated ≤ st.processed) :
    st.finish.snapOK := by
  refine ⟨hup, fun hf => ?_, fun _ => rfl⟩
  have hf2 : ("done" : String) = "failed" := hf
  exact absurd hf2 (by decide)

/-- Appending a snapshot dominating all previous ones preserves the
snapshot-list invariants. -/
theorem snaps_extend {snaps : List JobStatus} {st2 : JobStatus}
    (hok : ∀ s ∈ snaps, s.snapOK) (hpw : snaps.Pairwise progressLE)
    (hupto : ∀ s ∈ snaps, progressLE s st2) (hok2 : st2.snapOK) :
    (∀ s ∈ snaps ++ [st2], s.snapOK) ∧ (snaps ++ [st2]).Pairwise progressLE ∧
      (∀ s ∈ snaps ++ [st2], progressLE s st2) := by
  refine ⟨?_, ?_, ?_⟩
  · intro s hs
    rcases List.mem_append.mp hs with h | h
    · exact hok s h
    · rw [List.mem_singleton.mp h]
      exact hok2
  · rw [List.pairwise_append]
    refine ⟨hpw, by simp, ?_⟩
    intro a ha b hb
    rw [List.mem_singleton.mp hb]
    exact hupto a ha
  · intro s hs
    rcases List.mem_append.mp hs with h | h
    · exact hupto s h
    · rw [List.mem_singleton.mp h]
      exact progressLE_refl st2

/-- A failed MGET reports the store error of one of its keys. -/
theorem mgetErr_mem (env : Env) :
    ∀ (ks : List String) (e : String), mgetErr env ks = some e →
      ∃ k, env.get k = .err e := by
  intro ks
  induction ks with
  | nil => intro e h; cases h
  | cons k ks ih =>
    intro e h
    cases hg : env.get k with
    | err e2 =>
      simp only [mgetErr, hg] at h
      injection h with h
      exact ⟨k, h ▸ hg⟩
    | missing => simp only [mgetErr, hg] at h; exact ih e h
    | bad => simp only [mgetErr, hg] at h; exact ih e h
    | good v => simp only [mgetErr, hg] at h; exact ih e h

/-- A failed pipeline exec reports the SET error of one of its keys. -/
theorem pipeExecErr_mem (env : Env) :
    ∀ (pipe : List WriteRec) (e : String), pipeExecErr env pipe = some e →
      ∃ k, env.setRes k = some e := by
  intro pipe
  induction pipe with
  | nil => intro e h; cases h
  | cons w ws ih =>
    intro e h
    cases hs : env.setRes w.key with
    | some e2 =>
      simp only [pipeExecErr, hs] at h
      injection h with h
      exact ⟨w.key, h ▸ hs⟩
    | none => simp only [pipeExecErr, hs] at h; exact ih e h

/-- Invariant preservation through the per-key worker's inner loop: all
persisted snapshots are well-formed and monotone, the current record keeps
`updated ≤ processed`, and on a non-error exit the status is still
running. -/
theorem jobPerkeyKeys_inv (env : Env) (role : String) (d : Int)
    (hge : ∀ k e, env.get k = .err e → e ≠ "")
    (hse : ∀ k e, env.setRes k = some e → e ≠ "") :
    ∀ (ks : List String) (st : JobStatus) (snaps : List JobStatus) (ws : List WriteRec),
      st.status = "running" → st.updated ≤ st.processed →
      (∀ s ∈ snaps, s.snapOK) → snaps.Pairwise progressLE →
      (∀ s ∈ snaps, progressLE s st) →
      (∀ s ∈ (jobPerkeyKeys env role d ks st snaps ws).2.1, s.snapOK) ∧
      (jobPerkeyKeys env role d ks st snaps ws).2.1.Pairwise progressLE ∧
      (∀ s ∈ (jobPerkeyKeys env role d ks st snaps ws).2.1,
        progressLE s (jobPerkeyKeys env role d ks st snaps ws).1) ∧
      (jobPerkeyKeys env role d ks st snaps ws).1.updated ≤
        (jobPerkeyKeys env role d ks st snaps ws).1.processed ∧
      ((jobPerkeyKeys env role d ks st snaps ws).2.2.2 = none →
        (jobPerkeyKeys env role d ks st snaps ws).1.status = "running") := by
  intro ks
  induction ks with
  | nil =>
    intro st snaps ws hrun hcur hok hpw hupto
    exact ⟨hok, hpw, hupto, hcur, fun _ => hrun⟩
  | cons k ks ih =>
    intro st snaps ws hrun hcur hok hpw hupto
    have hupto1 : ∀ s ∈ snaps, progressLE s { st with processed := st.processed + 1 } :=
      fun s hs => progressLE_trans (hupto s hs) ⟨Nat.le_succ _, Nat.le_refl _⟩
    have hcur1 : st.updated ≤ st.processed + 1 := hcur.trans (Nat.le_succ _)
    cases hg : env.get k with
    | err e =>
      simp only [jobPerkeyKeys, hg]
      have hokF : (JobStatus.failWith { st with processed := st.processed + 1 } e).snapOK :=
        snapOK_failWith (hge k e hg) hcur1
      have huptoF : ∀ s ∈ snaps, progressLE s (JobStatus.failWith { st with processed := st.processed + 1 } e) := fun s hs => hupto1 s hs
      obtain ⟨hA, hB, hC⟩ := snaps_extend hok hpw huptoF hokF
      exact ⟨hA, hB, hC, hcur1, fun h => nomatch h⟩
    | missing =>
      simp only [jobPerkeyKeys, hg]
      have hok1 : ({ st with processed := st.processed + 1 } : JobStatus).snapOK :=
        snapOK_running hrun hcur1
      obtain ⟨hA, hB, hC⟩ := snaps_extend hok hpw hupto1 hok1
      exact ih _ _ ws hrun hcur1 hA hB hC
    | bad =>
      simp only [jobPerkeyKeys, hg]
      have hok1 : ({ st with processed := st.processed + 1 } : JobStatus).snapOK :=
        snapOK_running hrun hcur1
      obtain ⟨hA, hB, hC⟩ := snaps_extend hok hpw hupto1 hok1
      exact ih _ _ ws hrun hcur1 hA hB hC
    | good v =>
      simp only [jobPerkeyKeys, hg]
      by_cases hm : role ∈ v.roles
      · rw [if_pos hm]
        cases hs : env.setRes k with
        | some e =>
          simp only []
          have hokF : (JobStatus.failWith { st with processed := st.processed + 1 } e).snapOK :=
            snapOK_failWith (hse k e hs) hcur1
          have huptoF : ∀ s ∈ snaps, progressLE s (JobStatus.failWith { st with processed := st.processed + 1 } e) := fun s hsx => hupto1 s hsx
          obtain ⟨hA, hB, hC⟩ := snaps_extend hok hpw huptoF hokF
          exact ⟨hA, hB, hC, hcur1, fun h => nomatch h⟩
        | none =>
          simp only []
          have hcur2 : st.updated + 1 ≤ st.processed + 1 := Nat.succ_le_succ hcur
          have hupto2 : ∀ s ∈ snaps, progressLE s { { st with processed := st.processed + 1 } with updated := st.updated + 1 } := fun s hsx => progressLE_trans (hupto s hsx) ⟨Nat.le_succ _, Nat.le_succ _⟩
          have hok2 : ({ { st with processed := st.processed + 1 } with updated := st.updated + 1 } : JobStatus).snapOK := snapOK_running hrun hcur2
          by_cases h50 : (st.processed + 1) % 50 = 0
          · rw [if_pos h50]
            obtain ⟨hA, hB, hC⟩ := snaps_extend hok hpw hupto2 hok2
            exact ih _ _ _ hrun hcur2 hA hB hC
          · rw [if_neg h50]
            exact ih _ _ _ hrun hcur2 hok hpw hupto2
      · rw [if_neg hm]
        have hok1 : ({ st with processed := st.processed + 1 } : JobStatus).snapOK :=
          snapOK_running hrun hcur1
        by_cases h50 : (st.processed + 1) % 50 = 0
        · rw [if_pos h50]
          obtain ⟨hA, hB, hC⟩ := snaps_extend hok hpw hupto1 hok1
          exact ih _ _ ws hrun hcur1 hA hB hC
        · rw [if_neg h50]
          exact ih _ _ ws hrun hcur1 hok hpw hupto1

/-- Invariant of the per-key worker's whole run: every persisted snapshot is
well-formed and the persisted sequence is monotone. -/
theorem jobPerkeyBatches_inv (env : Env) (role : String) (d : Int)
    (hge : ∀ k e, env.get k = .err e → e ≠ "")
    (hse : ∀ k e, env.setRes k = some e → e ≠ "") :
    ∀ (bs : List (Except String (List String))), (∀ e, Except.error e ∈ bs → e ≠ "") →
    ∀ (st : JobStatus) (snaps : List JobStatus) (ws : List WriteRec),
      st.status = "running" → st.updated ≤ st.processed →
      (∀ s ∈ snaps, s.snapOK) → snaps.Pairwise progressLE →
      (∀ s ∈ snaps, progressLE s st) →
      (∀ s ∈ (jobPerkeyBatches env role d bs st snaps ws).snaps, s.snapOK) ∧
      (jobPerkeyBatches env role d bs st snaps ws).snaps.Pairwise progressLE := by
  intro bs
  induction bs with
  | nil =>
    intro _ st snaps ws hrun hcur hok hpw hupto
    simp only [jobPerkeyBatches]
    have huptoD : ∀ s ∈ snaps, progressLE s st.finish := fun s hs => hupto s hs
    obtain ⟨hA, hB, _⟩ := snaps_extend hok hpw huptoD (snapOK_finish hcur)
    exact ⟨hA, hB⟩
  | cons b bs ih =>
    intro hbe st snaps ws hrun hcur hok hpw hupto
    cases b with
    | error e =>
      simp only [jobPerkeyBatches]
      have huptoF : ∀ s ∈ snaps, progressLE s (st.failWith e) := fun s hs => hupto s hs
      obtain ⟨hA, hB, _⟩ := snaps_extend hok hpw huptoF
        (snapOK_failWith (hbe e (List.mem_cons_self _ _)) hcur)
      exact ⟨hA, hB⟩
    | ok ks =>
      simp only [jobPerkeyBatches]
      rcases hk : jobPerkeyKeys env role d ks st snaps ws with ⟨st2, snaps2, ws2, e?⟩
      have hkey := jobPerkeyKeys_inv env role d hge hse ks st snaps ws hrun hcur hok hpw hupto
      rw [hk] at hkey
      obtain ⟨hA, hB, hC, hD, hE⟩ := hkey
      simp only at hA hB hC hD hE
      cases e? with
      | some e => exact ⟨hA, hB⟩
      | none =>
        simp only []
        have hrun2 : st2.status = "running" := hE rfl
        obtain ⟨hA2, hB2, hC2⟩ := snaps_extend hA hB hC (snapOK_running hrun2 hD)
        exact ih (fun e2 he2 => hbe e2 (List.mem_cons_of_mem _ he2)) st2 (snaps2 ++ [st2])
          ws2 hrun2 hD hA2 hB2 hC2

/-- Invariant preservation through the MGET worker's inner loop. -/
theorem jobMgetKeys_inv (env : Env) (role : String) (d : Int) :
    ∀ (ks : List String) (st : JobStatus) (snaps : List JobStatus) (pipe : List WriteRec),
      st.status = "running" → st.updated ≤ st.processed →
      (∀ s ∈ snaps, s.snapOK) → snaps.Pairwise progressLE →
      (∀ s ∈ snaps, progressLE s st) →
      (∀ s ∈ (jobMgetKeys env role d ks st snaps pipe).2.1, s.snapOK) ∧
      (jobMgetKeys env role d ks st snaps pipe).2.1.Pairwise progressLE ∧
      (∀ s ∈ (jobMgetKeys env role d ks st snaps pipe).2.1,
        progressLE s (jobMgetKeys env role d ks st snaps pipe).1) ∧
      (jobMgetKeys env role d ks st snaps pipe).1.updated ≤
        (jobMgetKeys env role d ks st snaps pipe).1.processed ∧
      (jobMgetKeys env role d ks st snaps pipe).1.status = "running" := by
  intro ks
  induction ks with
  | nil =>
    intro st snaps pipe hrun hcur hok hpw hupto
    exact ⟨hok, hpw, hupto, hcur, hrun⟩
  | cons k ks ih =>
    intro st snaps pipe hrun hcur hok hpw hupto
    have hupto1 : ∀ s ∈ snaps, progressLE s { st with processed := st.processed + 1 } :=
      fun s hs => progressLE_trans (hupto s hs) ⟨Nat.le_succ _, Nat.le_refl _⟩
    have hcur1 : st.updated ≤ st.processed + 1 := hcur.trans (Nat.le_succ _)
    cases hg : env.get k with
    | err e =>
      simp only [jobMgetKeys, hg]
      exact ih _ _ pipe hrun hcur1 hok hpw hupto1
    | missing =>
      simp only [jobMgetKeys, hg]
      by_cases h50 : (st.processed + 1) % 50 = 0
      · rw [if_pos h50]
        obtain ⟨hA, hB, hC⟩ := snaps_extend hok hpw hupto1 (snapOK_running hrun hcur1)
        exact ih _ _ pipe hrun hcur1 hA hB hC
      · rw [if_neg h50]
        exact ih _ _ pipe hrun hcur1 hok hpw hupto1
    | bad =>
      simp only [jobMgetKeys, hg]
      exact ih _ _ pipe hrun hcur1 hok hpw hupto1
    | good v =>
      simp only [jobMgetKeys, hg]
      by_cases hm : role ∈ v.roles
      · simp only [if_pos hm]
        have hcur2 : st.updated + 1 ≤ st.processed + 1 := Nat.succ_le_succ hcur
        have hupto2 : ∀ s ∈ snaps, progressLE s { { st with processed := st.processed + 1 } with updated := st.updated + 1 } := fun s hsx => progressLE_trans (hupto s hsx) ⟨Nat.le_succ _, Nat.le_succ _⟩
        by_cases h50 : (st.processed + 1) % 50 = 0
        · rw [if_pos h50]
          obtain ⟨hA, hB, hC⟩ := snaps_extend hok hpw hupto2 (snapOK_running hrun hcur2)
          exact ih _ _ _ hrun hcur2 hA hB hC
        · rw [if_neg h50]
          exact ih _ _ _ hrun hcur2 hok hpw hupto2
      · simp only [if_neg hm]
        by_cases h50 : (st.processed + 1) % 50 = 0
        · rw [if_pos h50]
          obtain ⟨hA, hB, hC⟩ := snaps_extend hok hpw hupto1 (snapOK_running hrun hcur1)
          exact ih _ _ _ hrun hcur1 hA hB hC
        · rw [if_neg h50]
          exact ih _ _ _ hrun hcur1 hok hpw hupto1

/-- Invariant of the MGET worker's whole run: every persisted snapshot is
well-formed and the persisted sequence is monotone. -/
theorem jobMgetBatches_inv (env : Env) (role : String) (d : Int)
    (hge : ∀ k e, env.get k = .err e → e ≠ "")
    (hse : ∀ k e, env.setRes k = some e → e ≠ "") :
    ∀ (bs : List (Except String (List String))), (∀ e, Except.error e ∈ bs → e ≠ "") →
    ∀ (st : JobStatus) (snaps : List JobStatus) (ws : List WriteRec),
      st.status = "running" → st.updated ≤ st.processed →
      (∀ s ∈ snaps, s.snapOK) → snaps.Pairwise progressLE →
      (∀ s ∈ snaps, progressLE s st) →
      (∀ s ∈ (jobMgetBatches env role d bs st snaps ws).snaps, s.snapOK) ∧
      (jobMgetBatches env role d bs st snaps ws).snaps.Pairwise progressLE := by
  intro bs
  induction bs with
  | nil =>
    intro _ st snaps ws hrun hcur hok hpw hupto
    simp only [jobMgetBatches]
    have huptoD : ∀ s ∈ snaps, progressLE s st.finish := fun s hs => hupto s hs
    obtain ⟨hA, hB, _⟩ := snaps_extend hok hpw huptoD (snapOK_finish hcur)
    exact ⟨hA, hB⟩
  | cons b bs ih =>
    intro hbe st snaps ws hrun hcur hok hpw hupto
    cases b with
    | error e =>
      simp only [jobMgetBatches]
      have huptoF : ∀ s ∈ snaps, progressLE s (st.failWith e) := fun s hs => hupto s hs
      obtain ⟨hA, hB, _⟩ := snaps_extend hok hpw huptoF
        (snapOK_failWith (hbe e (List.mem_cons_self _ _)) hcur)
      exact ⟨hA, hB⟩
    | ok ks =>
      simp only [jobMgetBatches]
      by_cases hbemp : (ks.isEmpty && bs.isEmpty) = true
      · rw [if_pos hbemp]
        have huptoD : ∀ s ∈ snaps, progressLE s st.finish := fun s hs => hupto s hs
        obtain ⟨hA, hB, _⟩ := snaps_extend hok hpw huptoD (snapOK_finish hcur)
        exact ⟨hA, hB⟩
      · rw [if_neg hbemp]
        by_cases hemp : ks.isEmpty = true
        · rw [if_pos hemp]
          have huptoF : ∀ s ∈ snaps, progressLE s (st.failWith mgetArityErr) := fun s hs => hupto s hs
          obtain ⟨hA, hB, _⟩ := snaps_extend hok hpw huptoF (snapOK_failWith (by decide) hcur)
          exact ⟨hA, hB⟩
        · rw [if_neg hemp]
          cases hme : mgetErr env ks with
          | some e =>
            simp only []
            obtain ⟨k0, hk0⟩ := mgetErr_mem env ks e hme
            have huptoF : ∀ s ∈ snaps, progressLE s (st.failWith e) := fun s hs => hupto s hs
            obtain ⟨hA, hB, _⟩ := snaps_extend hok hpw huptoF
              (snapOK_failWith (hge k0 e hk0) hcur)
            exact ⟨hA, hB⟩
          | none =>
            simp only []
            rcases hk : jobMgetKeys env role d ks st snaps [] with ⟨st2, snaps2, pipe⟩
            have hkey := jobMgetKeys_inv env role d ks st snaps [] hrun hcur hok hpw hupto
            rw [hk] at hkey
            obtain ⟨hA, hB, hC, hD, hE⟩ := hkey
            simp only at hA hB hC hD hE
            cases hpe : pipeExecErr env pipe with
            | some e =>
              simp only []
              obtain ⟨k0, hk0⟩ := pipeExecErr_mem env pipe e hpe
              have huptoF : ∀ s ∈ snaps2, progressLE s (st2.failWith e) := fun s hs => hC s hs
              obtain ⟨hA2, hB2, _⟩ := snaps_extend hA hB huptoF
                (snapOK_failWith (hse k0 e hk0) hD)
              exact ⟨hA2, hB2⟩
            | none =>
              simp only []
              obtain ⟨hA2, hB2, hC2⟩ := snaps_extend hA hB hC (snapOK_running hE hD)
              exact ih (fun e2 he2 => hbe e2 (List.mem_cons_of_mem _ he2)) st2 (snaps2 ++ [st2])
                (ws ++ pipe) hE hD hA2 hB2 hC2

/-- C5: every snapshot persisted by a cleanup worker (either variant)
satisfies processed ≥ updated (≥ 0 by typing), a failed snapshot carries a
non-empty error (store error messages being non-empty), a terminal snapshot
has finished_at set, and the sequence of persisted snapshots is monotone in
processed and updated. -/
theorem C5_job_snapshot_invariants (env : Env) (jobID role : String) (d : Int)
    (hbe : ∀ e, Except.error e ∈ env.batches → e ≠ "")
    (hge : ∀ k e, env.get k = .err e → e ≠ "")
    (hse : ∀ k e, env.setRes k = some e → e ≠ "") :
    (∀ s ∈ (runRemoveRoleJob_perkey env jobID role d).snaps, s.snapOK) ∧
    (runRemoveRoleJob_perkey env jobID role d).snaps.Pairwise progressLE ∧
    (∀ s ∈ (runRemoveRoleJob_mget env jobID role d).snaps, s.snapOK) ∧
    (runRemoveRoleJob_mget env jobID role d).snaps.Pairwise progressLE := by
  have hst0 : (⟨jobID, role, 0, 0, "running", 0, none, ""⟩ : JobStatus).snapOK :=
    snapOK_running rfl (Nat.le_refl 0)
  have h1 := jobPerkeyBatches_inv env role d hge hse env.batches hbe
    ⟨jobID, role, 0, 0, "running", 0, none, ""⟩ [⟨jobID, role, 0, 0, "running", 0, none, ""⟩] []
    rfl (Nat.le_refl 0)
    (by intro s hs; rw [List.mem_singleton.mp hs]; exact hst0)
    (by simp)
    (by intro s hs; rw [List.mem_singleton.mp hs]; exact progressLE_refl _)
  have h2 := jobMgetBatches_inv env role d hge hse env.batches hbe
    ⟨jobID, role, 0, 0, "running", 0, none, ""⟩ [⟨jobID, role, 0, 0, "running", 0, none, ""⟩] []
    rfl (Nat.le_refl 0)
    (by intro s hs; rw [List.mem_singleton.mp hs]; exact hst0)
    (by simp)
    (by intro s hs; rw [List.mem_singleton.mp hs]; exact progressLE_refl _)
  exact ⟨h1.1, h1.2, h2.1, h2.2⟩

/-- C5 witness: the snapshot-invariant theorem applied to a concrete store. -/
theorem C5_job_snapshot_invariants_witness :
    (∀ s ∈ (runRemoveRoleJob_perkey envAbsent "j2" "admin" 300).snaps, s.snapOK) ∧
    (runRemoveRoleJob_perkey envAbsent "j2" "admin" 300).snaps.Pairwise progressLE ∧
    (∀ s ∈ (runRemoveRoleJob_mget envAbsent "j2" "admin" 300).snaps, s.snapOK) ∧
    (runRemoveRoleJob_mget envAbsent "j2" "admin" 300).snaps.Pairwise progressLE :=
  C5_job_snapshot_invariants envAbsent "j2" "admin" 300
    (by intro e he; simp [envAbsent] at he)
    (fun _ e h => nomatch h)
    (fun _ e h => nomatch h)

/-- Reference form of one scan pass's rewrites on an error-free store: the
entries whose decoded value contains the role, rewritten with the filtered
list and the expiration given by `mkExp`, in scan order. -/
def passWrites (env : Env) (role : String) (mkExp : String → Int) : List String → List WriteRec
  | [] => []
  | k :: ks =>
    match env.get k with
    | .good v =>
      if role ∈ v.roles then
        ⟨k, { v with roles := v.roles.filter fun r => r ≠ role }, mkExp k⟩ ::
          passWrites env role mkExp ks
      else passWrites env role mkExp ks
    | _ => passWrites env role mkExp ks

/-- Keys produced by an error-free scan, page by page. -/
def scanKeys : List (Except String (List String)) → List String
  | [] => []
  | .ok ks :: rest => ks ++ scanKeys rest
  | .error _ :: rest => scanKeys rest

/-- Expiration function of the per-key variant. -/
def perkeyExp (env : Env) (d : Int) : String → Int := fun k => ttlChoicePerkey (env.ttl k) d

/-- Expiration function of the MGET variant. -/
def mgetExp (env : Env) (d : Int) : String → Int := fun k => ttlChoiceMget (env.ttl k) d

theorem passWrites_append (env : Env) (role : String) (mkExp : String → Int) :
    ∀ l1 l2, passWrites env role mkExp (l1 ++ l2) =
      passWrites env role mkExp l1 ++ passWrites env role mkExp l2 := by
  intro l1 l2
  induction l1 with
  | nil => rfl
  | cons k ks ih =>
    cases hg : env.get k with
    | good v =>
      simp only [List.cons_append, passWrites, hg]
      by_cases hm : role ∈ v.roles
      · rw [if_pos hm, if_pos hm]
        have ih2 : passWrites env role mkExp (List.append ks l2) =
            passWrites env role mkExp ks ++ passWrites env role mkExp l2 := ih
        rw [ih2]
        rfl
      · rw [if_neg hm, if_neg hm]
        exact ih
    | err e =>
      simp only [List.cons_append, passWrites, hg]
      exact ih
    | missing =>
      simp only [List.cons_append, passWrites, hg]
      exact ih
    | bad =>
      simp only [List.cons_append, passWrites, hg]
      exact ih

/-- The rewrites of the two variants differ at most in their expirations:
keys, values and count agree. -/
theorem passWrites_strip (env : Env) (role : String) (f g : String → Int) :
    ∀ ks, (passWrites env role f ks).map (fun w => (w.key, w.val)) =
        (passWrites env role g ks).map (fun w => (w.key, w.val)) ∧
      (passWrites env role f ks).length = (passWrites env role g ks).length := by
  intro ks
  induction ks with
  | nil => exact ⟨rfl, rfl⟩
  | cons k ks ih =>
    cases hg : env.get k with
    | good v =>
      simp only [passWrites, hg]
      by_cases hm : role ∈ v.roles
      · rw [if_pos hm, if_pos hm]
        simp only [List.map_cons, List.length_cons]
        exact ⟨by rw [ih.1], by rw [ih.2]⟩
      · rw [if_neg hm, if_neg hm]
        exact ih
    | err e => simp only [passWrites, hg]; exact ih
    | missing => simp only [passWrites, hg]; exact ih
    | bad => simp only [passWrites, hg]; exact ih

theorem passWrites_congr (env : Env) (role : String) {f g : String → Int}
    (h : ∀ k, f k = g k) :
    ∀ ks, passWrites env role f ks = passWrites env role g ks := by
  intro ks
  induction ks with
  | nil => rfl
  | cons k ks ih =>
    cases hg : env.get k with
    | good v =>
      simp only [passWrites, hg]
      by_cases hm : role ∈ v.roles
      · rw [if_pos hm, if_pos hm, h k, ih]
      · rw [if_neg hm, if_neg hm]
        exact ih
    | err e => simp only [passWrites, hg]; exact ih
    | missing => simp only [passWrites, hg]; exact ih
    | bad => simp only [passWrites, hg]; exact ih

/-- Normal form of the per-key pass's inner loop on an error-free store. -/
theorem perkeyKeys_noerr (env : Env) (role : String) (d : Int)
    (hget : ∀ k, (env.get k).isErr = false) (hset : ∀ k, env.setRes k = none) :
    ∀ (ks : List String) (upd : Nat) (ws : List WriteRec),
      perkeyKeys env role d ks upd ws =
        (upd + (passWrites env role (perkeyExp env d) ks).length, none,
          ws ++ passWrites env role (perkeyExp env d) ks) := by
  intro ks
  induction ks with
  | nil =>
    intro upd ws
    simp [perkeyKeys, passWrites]
  | cons k ks ih =>
    intro upd ws
    cases hg : env.get k with
    | err e =>
      have hk := hget k
      rw [hg] at hk
      cases hk
    | missing =>
      simp only [perkeyKeys, passWrites, hg]
      exact ih upd ws
    | bad =>
      simp only [perkeyKeys, passWrites, hg]
      exact ih upd ws
    | good v =>
      simp only [perkeyKeys, passWrites, hg, perkeyExp]
      by_cases hm : role ∈ v.roles
      · rw [if_neg (length_filter_ne_of_mem hm), if_pos hm, hset k]
        simp only []
        rw [ih]
        simp only [Prod.mk.injEq, PassResult.mk.injEq, List.length_cons, List.length_append,
          List.append_assoc, List.singleton_append, true_and, and_true]
        omega
      · rw [if_pos (by rw [filter_ne_eq_self_of_not_mem hm]), if_neg hm]
        exact ih upd ws

/-- Normal form of the per-key pass on an error-free store. -/
theorem perkeyBatches_noerr (env : Env) (role : String) (d : Int)
    (hget : ∀ k, (env.get k).isErr = false) (hset : ∀ k, env.setRes k = none) :
    ∀ (bs : List (Except String (List String))), (∀ b ∈ bs, scanOk b = true) →
    ∀ (upd : Nat) (ws : List WriteRec),
      perkeyBatches env role d bs upd ws =
        ⟨upd + (passWrites env role (perkeyExp env d) (scanKeys bs)).length, none,
          ws ++ passWrites env role (perkeyExp env d) (scanKeys bs)⟩ := by
  intro bs
  induction bs with
  | nil =>
    intro _ upd ws
    simp [perkeyBatches, scanKeys, passWrites]
  | cons b bs ih =>
    intro hb upd ws
    cases b with
    | error e => cases hb (.error e) (List.mem_cons_self _ _)
    | ok ks =>
      simp only [perkeyBatches, scanKeys]
      rw [perkeyKeys_noerr env role d hget hset ks upd ws]
      simp only []
      rw [ih (fun b2 hb2 => hb b2 (List.mem_cons_of_mem _ hb2))]
      rw [passWrites_append]
      simp only [Prod.mk.injEq, PassResult.mk.injEq, List.length_cons, List.length_append,
        List.append_assoc, List.singleton_append, true_and, and_true]
      omega

/-- A pipeline exec over an error-free store succeeds. -/
theorem pipeExecErr_none (env : Env) (hset : ∀ k, env.setRes k = none) :
    ∀ pipe, pipeExecErr env pipe = none := by
  intro pipe
  induction pipe with
  | nil => rfl
  | cons w ws ih =>
    simp only [pipeExecErr, hset w.key]
    exact ih

/-- Normal form of the MGET pass's inner loop (no hypotheses needed: the loop
itself touches no store). -/
theorem mgetKeys_form (env : Env) (role : String) (d : Int) :
    ∀ (ks : List String) (upd : Nat) (pipe : List WriteRec),
      mgetKeys env role d ks upd pipe =
        (upd + (passWrites env role (mgetExp env d) ks).length,
          pipe ++ passWrites env role (mgetExp env d) ks) := by
  intro ks
  induction ks with
  | nil =>
    intro upd pipe
    simp [mgetKeys, passWrites]
  | cons k ks ih =>
    intro upd pipe
    cases hg : env.get k with
    | err e =>
      simp only [mgetKeys, passWrites, hg]
      exact ih upd pipe
    | missing =>
      simp only [mgetKeys, passWrites, hg]
      exact ih upd pipe
    | bad =>
      simp only [mgetKeys, passWrites, hg]
      exact ih upd pipe
    | good v =>
      simp only [mgetKeys, passWrites, hg, mgetExp]
      by_cases hm : role ∈ v.roles
      · rw [if_pos hm, if_pos hm]
        rw [ih]
        simp only [Prod.mk.injEq, PassResult.mk.injEq, List.length_cons, List.length_append,
          List.append_assoc, List.singleton_append, true_and, and_true]
        omega
      · rw [if_neg hm, if_neg hm]
        exact ih upd pipe

/-- Normal form of the MGET pass on an error-free store. -/
theorem mgetBatches_noerr (env : Env) (role : String) (d : Int)
    (hget : ∀ k, (env.get k).isErr = false) (hset : ∀ k, env.setRes k = none) :
    ∀ (bs : List (Except String (List String))), (∀ b ∈ bs, scanOk b = true) →
    ∀ (upd : Nat) (ws : List WriteRec),
      mgetBatches env role d bs upd ws =
        ⟨upd + (passWrites env role (mgetExp env d) (scanKeys bs)).length, none,
          ws ++ passWrites env role (mgetExp env d) (scanKeys bs)⟩ := by
  intro bs
  induction bs with
  | nil =>
    intro _ upd ws
    simp [mgetBatches, scanKeys, passWrites]
  | cons b bs ih =>
    intro hb upd ws
    cases b with
    | error e => cases hb (.error e) (List.mem_cons_self _ _)
    | ok ks =>
      cases ks with
      | nil =>
        simp only [mgetBatches, scanKeys, List.isEmpty_nil, if_pos rfl, List.nil_append]
        exact ih (fun b2 hb2 => hb b2 (List.mem_cons_of_mem _ hb2)) upd ws
      | cons k ks2 =>
        simp only [mgetBatches, scanKeys]
        rw [if_neg (by simp)]
        rw [mgetErr_none env hget (k :: ks2)]
        simp only []
        rw [mgetKeys_form env role d (k :: ks2) upd []]
        simp only []
        rw [pipeExecErr_none env hset]
        simp only [List.nil_append]
        rw [ih (fun b2 hb2 => hb b2 (List.mem_cons_of_mem _ hb2))]
        rw [passWrites_append]
        simp only [Prod.mk.injEq, PassResult.mk.injEq, List.length_cons, List.length_append,
          List.append_assoc, List.singleton_append, true_and, and_true]
        omega

/-- Writes of the per-key worker's inner loop on an error-free store. -/
theorem jobPerkeyKeys_writes (env : Env) (role : String) (d : Int)
    (hget : ∀ k, (env.get k).isErr = false) (hset : ∀ k, env.setRes k = none) :
    ∀ (ks : List String) (st : JobStatus) (snaps : List JobStatus) (ws : List WriteRec),
      (jobPerkeyKeys env role d ks st snaps ws).2.2.1 =
        ws ++ passWrites env role (perkeyExp env d) ks ∧
      (jobPerkeyKeys env role d ks st snaps ws).2.2.2 = none := by
  intro ks
  induction ks with
  | nil =>
    intro st snaps ws
    simp [jobPerkeyKeys, passWrites]
  | cons k ks ih =>
    intro st snaps ws
    cases hg : env.get k with
    | err e =>
      have hk := hget k
      rw [hg] at hk
      cases hk
    | missing =>
      simp only [jobPerkeyKeys, passWrites, hg]
      exact ih _ _ ws
    | bad =>
      simp only [jobPerkeyKeys, passWrites, hg]
      exact ih _ _ ws
    | good v =>
      simp only [jobPerkeyKeys, passWrites, hg, perkeyExp]
      by_cases hm : role ∈ v.roles
      · rw [if_pos hm, if_pos hm, hset k]
        simp only []
        refine ⟨?_, (ih _ _ _).2⟩
        rw [(ih _ _ _).1]
        simp [List.append_assoc]
      · rw [if_neg hm, if_neg hm]
        exact ih _ _ ws

/-- Writes and outcome of the per-key worker on an error-free store. -/
theorem jobPerkeyBatches_writes (env : Env) (role : String) (d : Int)
    (hget : ∀ k, (env.get k).isErr = false) (hset : ∀ k, env.setRes k = none) :
    ∀ (bs : List (Except String (List String))), (∀ b ∈ bs, scanOk b = true) →
    ∀ (st : JobStatus) (snaps : List JobStatus) (ws : List WriteRec),
      (jobPerkeyBatches env role d bs st snaps ws).writes =
        ws ++ passWrites env role (perkeyExp env d) (scanKeys bs) ∧
      (jobPerkeyBatches env role d bs st snaps ws).err = none ∧
      (jobPerkeyBatches env role d bs st snaps ws).final.status = "done" := by
  intro bs
  induction bs with
  | nil =>
    intro _ st snaps ws
    simp [jobPerkeyBatches, scanKeys, passWrites, JobStatus.finish]
  | cons b bs ih =>
    intro hb st snaps ws
    cases b with
    | error e => cases hb (.error e) (List.mem_cons_self _ _)
    | ok ks =>
      simp only [jobPerkeyBatches, scanKeys]
      rcases hk : jobPerkeyKeys env role d ks st snaps ws with ⟨st2, snaps2, ws2, e?⟩
      have hkey := jobPerkeyKeys_writes env role d hget hset ks st snaps ws
      rw [hk] at hkey
      obtain ⟨hw, he⟩ := hkey
      simp only at hw he
      subst he
      simp only []
      have h2 := ih (fun b2 hb2 => hb b2 (List.mem_cons_of_mem _ hb2)) st2 (snaps2 ++ [st2]) ws2
      refine ⟨?_, h2.2.1, h2.2.2⟩
      rw [h2.1, hw, passWrites_append]
      simp [List.append_assoc]

/-- Writes queued by the MGET worker's inner loop. -/
theorem jobMgetKeys_writes (env : Env) (role : String) (d : Int) :
    ∀ (ks : List String) (st : JobStatus) (snaps : List JobStatus) (pipe : List WriteRec),
      (jobMgetKeys env role d ks st snaps pipe).2.2 =
        pipe ++ passWrites env role (mgetExp env d) ks := by
  intro ks
  induction ks with
  | nil =>
    intro st snaps pipe
    simp [jobMgetKeys, passWrites]
  | cons k ks ih =>
    intro st snaps pipe
    cases hg : env.get k with
    | err e =>
      simp only [jobMgetKeys, passWrites, hg]
      exact ih _ _ pipe
    | missing =>
      simp only [jobMgetKeys, passWrites, hg]
      exact ih _ _ pipe
    | bad =>
      simp only [jobMgetKeys, passWrites, hg]
      exact ih _ _ pipe
    | good v =>
      simp only [jobMgetKeys, passWrites, hg, mgetExp]
      by_cases hm : role ∈ v.roles
      · simp only [if_pos hm]
        rw [(ih _ _ _)]
        simp [List.append_assoc]
      · simp only [if_neg hm]
        exact ih _ _ pipe

/-- Writes and outcome of the MGET worker on an error-free store. -/
theorem jobMgetBatches_writes (env : Env) (role : String) (d : Int)
    (hget : ∀ k, (env.get k).isErr = false) (hset : ∀ k, env.setRes k = none) :
    ∀ (bs : List (Except String (List String))), (∀ b ∈ bs, scanOk b = true) →
    noZeroKeyMget bs →
    ∀ (st : JobStatus) (snaps : List JobStatus) (ws : List WriteRec),
      (jobMgetBatches env role d bs st snaps ws).writes =
        ws ++ passWrites env role (mgetExp env d) (scanKeys bs) ∧
      (jobMgetBatches env role d bs st snaps ws).err = none ∧
      (jobMgetBatches env role d bs st snaps ws).final.status = "done" := by
  intro bs
  induction bs with
  | nil =>
    intro _ _ st snaps ws
    simp [jobMgetBatches, scanKeys, passWrites, JobStatus.finish]
  | cons b bs ih =>
    intro hb hnz st snaps ws
    cases b with
    | error e => cases hb (.error e) (List.mem_cons_self _ _)
    | ok ks =>
      cases ks with
      | nil =>
        cases bs with
        | nil =>
          simp [jobMgetBatches, scanKeys, passWrites, JobStatus.finish]
        | cons b2 bs2 =>
          rcases hnz.1 with hne | hbs
          · exact absurd rfl hne
          · cases hbs
      | cons k ks2 =>
        simp only [jobMgetBatches, scanKeys]
        rw [if_neg (by simp), if_neg (by simp)]
        rw [mgetErr_none env hget (k :: ks2)]
        simp only []
        rcases hk : jobMgetKeys env role d (k :: ks2) st snaps [] with ⟨st2, snaps2, pipe⟩
        have hkey := jobMgetKeys_writes env role d (k :: ks2) st snaps []
        rw [hk] at hkey
        simp only [List.nil_append] at hkey
        subst hkey
        rw [pipeExecErr_none env hset]
        simp only []
        have h2 := ih (fun b2 hb2 => hb b2 (List.mem_cons_of_mem _ hb2)) hnz.2 st2 (snaps2 ++ [st2])
          (ws ++ passWrites env role (mgetExp env d) (k :: ks2))
        refine ⟨?_, h2.2.1, h2.2.2⟩
        rw [h2.1, passWrites_append]
        simp [List.append_assoc]

/-! Claim theorems. -/

/-- C2: for every write operation of the Roles Service (AssignRole,
AssignRolesToUser on a non-empty list, RemoveRoleFromUser, DeleteRole), an
upstream failure is returned as the operation's error and no cache mutation is
performed (no invalidation, no cleanup job started); cache mutation happens
only after upstream success. -/
theorem C2_write_aborts_on_upstream_failure :
    ∀ (e : String) (inv : Except String Unit) (startRes : Except String String)
      (userID roleID r : String) (rs : List String),
      Service.AssignRole (.error e) inv userID = (.error e, []) ∧
      Service.AssignRolesToUser (.error e) inv userID (r :: rs) = (.error e, []) ∧
      Service.RemoveRoleFromUser (.error e) inv userID = (.error e, []) ∧
      Service.DeleteRole (.error e) startRes roleID = (.error e, []) := by
  intro e inv startRes userID roleID r rs
  exact ⟨rfl, rfl, rfl, rfl⟩

/-- C4: on the read path, a cache GET error is degraded to a miss — the call
proceeds to the upstream fetch and returns its result — and a cache SET error
after a successful fetch is swallowed (the SET result argument is arbitrary,
including an error): the call still returns the upstream roles. -/
theorem C4_read_path_degrades_store_errors :
    ∀ (e e2 : String) (rs : List String) (sr : Except String Unit),
      Service.GetUserRoles (.error e) (.ok rs) sr = (.ok rs, true) ∧
      Service.GetUserRoles (.error e) (.error e2) sr = (.error e2, true) ∧
      Service.GetUserRoles (.ok none) (.ok rs) sr = (.ok rs, true) := by
  intro e e2 rs sr
  exact ⟨rfl, rfl, rfl⟩

/-- C3 is false as stated: when the upstream returns the same role key in two
grants, the read path's flatten concatenates without de-duplication and the
snapshot stored by the cache fill contains a duplicate role key. -/
theorem C3_counterexample_duplicate_roles_cached :
    flattenGrantRoles [⟨"g1", "1", ["admin"]⟩, ⟨"g2", "2", ["admin"]⟩] = ["admin", "admin"] ∧
    ¬ (SetRoles "u1"
        (flattenGrantRoles [⟨"g1", "1", ["admin"]⟩, ⟨"g2", "2", ["admin"]⟩])
        0 300 5).val.roles.Nodup := by
  exact ⟨rfl, by decide⟩

/-- C3 amended: every stored RoleSnapshot has version "v1", and its roles list
is exactly the list the caller passed — in particular the read path's cache
fill stores the flattened upstream role list verbatim, so duplicates coming
from multiple grants are preserved, not removed. -/
theorem C3_amended_snapshot_version_and_verbatim_roles :
    ∀ (u : String) (roles : List String) (ttl defTTL : Int) (now : Nat),
      (SetRoles u roles ttl defTTL now).val.version = "v1" ∧
      (SetRoles u roles ttl defTTL now).val.roles = roles := by
  intro u roles ttl defTTL now
  exact ⟨rfl, rfl⟩

/-- C6 is false as stated: a returned grant that contains the role key but has
both `grantId` and `id` empty makes `RemoveRoleFromUser` fail with NotFound
and issue no delete request, although a grant containing the role key was
returned. -/
theorem C6_counterexample_empty_grant_ids :
    RemoveRoleFromUser [⟨"", "", ["admin"]⟩] "admin" "u1" = .notFound ∧
    "admin" ∈ (Grant.mk "" "" ["admin"]).roleKeys := by
  exact ⟨rfl, by decide⟩

/-- C6 amended: if no returned grant contains the role key the operation
fails with NotFound and issues no delete request; every issued delete request
targets the non-empty `grantId`-else-`id` identifier of the LAST returned
grant containing the role key (no later grant matches); and conversely, when
the last matching grant's chosen identifier is non-empty, the operation
issues exactly that delete request (a matching grant whose both identifiers
are empty instead ends in NotFound). -/
theorem C6_amended_grant_selection :
    (∀ (result : List Grant) (roleID userID : String),
        (∀ g ∈ result, roleID ∉ g.roleKeys) →
        RemoveRoleFromUser result roleID userID = .notFound) ∧
    (∀ (result : List Grant) (roleID userID uid gid : String),
        RemoveRoleFromUser result roleID userID = .deleteReq uid gid →
        uid = userID ∧ gid ≠ "" ∧
        ∃ pre g suf, result = pre ++ g :: suf ∧ roleID ∈ g.roleKeys ∧
          (∀ g' ∈ suf, roleID ∉ g'.roleKeys) ∧ gid = grantChoice g) ∧
    (∀ (pre : List Grant) (g : Grant) (suf : List Grant) (roleID userID : String),
        roleID ∈ g.roleKeys → (∀ g' ∈ suf, roleID ∉ g'.roleKeys) → grantChoice g ≠ "" →
        RemoveRoleFromUser (pre ++ g :: suf) roleID userID =
          .deleteReq userID (grantChoice g)) := by
  refine ⟨?_, ?_, ?_⟩
  · intro result roleID userID h
    unfold RemoveRoleFromUser findGrantToDelete
    rw [grantFold_no_match roleID result "" h]
    rfl
  · intro result roleID userID uid gid h
    unfold RemoveRoleFromUser findGrantToDelete at h
    by_cases hz :
        result.foldl (fun a g => if roleID ∈ g.roleKeys then grantChoice g else a) "" = ""
    · rw [if_pos hz] at h
      cases h
    · rw [if_neg hz] at h
      cases h
      rcases grantFold_last roleID result "" with ⟨_, h0⟩ | ⟨pre, g, suf, heq, hmem, hsuf, hfold⟩
      · exact absurd h0 hz
      · exact ⟨rfl, hz, pre, g, suf, heq, hmem, hsuf, hfold⟩
  · intro pre g suf roleID userID hmem hsuf hch
    unfold RemoveRoleFromUser
    rw [findGrantToDelete_last roleID pre g suf hmem hsuf]
    rw [if_neg hch]

/-- C6 witness: the amended theorem applied at concrete inputs — a grant list
with no match yields NotFound; with two matching grants, the delete targets
the LAST one's identifier "gidB" (not the first one's "gidA"), and the
characterization recovers that decomposition. -/
theorem C6_amended_witness :
    RemoveRoleFromUser [⟨"gA", "idA", ["viewer"]⟩] "admin" "u7" = .notFound ∧
    RemoveRoleFromUser [⟨"gidA", "idA", ["admin"]⟩, ⟨"gidB", "idB", ["admin", "x"]⟩]
      "admin" "u7" = .deleteReq "u7" "gidB" ∧
    ("gidB" ≠ "" ∧ ∃ pre g suf,
      ([⟨"gidA", "idA", ["admin"]⟩, ⟨"gidB", "idB", ["admin", "x"]⟩] : List Grant) =
        pre ++ g :: suf ∧
      "admin" ∈ g.roleKeys ∧ (∀ g' ∈ suf, "admin" ∉ g'.roleKeys) ∧
      "gidB" = grantChoice g) := by
  refine ⟨?_, ?_, ?_⟩
  · exact C6_amended_grant_selection.1 [⟨"gA", "idA", ["viewer"]⟩] "admin" "u7" (by decide)
  · have h3 := C6_amended_grant_selection.2.2 [⟨"gidA", "idA", ["admin"]⟩]
      ⟨"gidB", "idB", ["admin", "x"]⟩ [] "admin" "u7" (by decide)
      (by intro g' hg'; cases hg') (by decide)
    simpa [grantChoice] using h3
  · have h2 := C6_amended_grant_selection.2.1
      [⟨"gidA", "idA", ["admin"]⟩, ⟨"gidB", "idB", ["admin", "x"]⟩]
      "admin" "u7" "u7" "gidB" (by decide)
    exact ⟨h2.2.1, h2.2.2⟩

/-- C1 is false as stated: on an entry whose TTL query answers the
"no expiration" sentinel (-1), the per-key variant's pass performs a write
with the configured default TTL (300 here), not a write with no expiration
(which would be expiration 0). -/
theorem C1_counterexample_no_expiry_sentinel :
    envNoExpiry.ttl "roles:u1" = .ok (-1) ∧
    (RemoveRoleFromAllCaches_perkey envNoExpiry "admin" 300).writes =
      [⟨"roles:u1", ⟨["editor"], 7, "v1"⟩, 300⟩] ∧
    (300 : Int) ≠ 0 := by
  exact ⟨rfl, by decide, by decide⟩

/-- C1 amended: every rewrite of a cleanup pass (synchronous pass or job
worker, either variant) queries the TTL and applies its variant's rule: a
positive remaining TTL is reused verbatim and a store error while fetching the
TTL falls back to the configured default TTL in both variants; but on the
"no expiration" sentinel the per-key variant falls back to the default TTL
while the MGET variant writes with no expiration; and the "key missing"
sentinel does not cause the entry to be skipped — it is still rewritten, with
the default TTL in the per-key variant and with no expiration in the MGET
variant. -/
theorem C1_amended_ttl_reapplication :
    (∀ (env : Env) (role : String) (d : Int),
      ∀ w ∈ (RemoveRoleFromAllCaches_perkey env role d).writes,
        w.exp = ttlChoicePerkey (env.ttl w.key) d) ∧
    (∀ (env : Env) (role : String) (d : Int),
      ∀ w ∈ (RemoveRoleFromAllCaches_mget env role d).writes,
        w.exp = ttlChoiceMget (env.ttl w.key) d) ∧
    (∀ (env : Env) (jobID role : String) (d : Int),
      ∀ w ∈ (runRemoveRoleJob_perkey env jobID role d).writes,
        w.exp = ttlChoicePerkey (env.ttl w.key) d) ∧
    (∀ (env : Env) (jobID role : String) (d : Int),
      ∀ w ∈ (runRemoveRoleJob_mget env jobID role d).writes,
        w.exp = ttlChoiceMget (env.ttl w.key) d) ∧
    (∀ (k : String) (v : RolesValue) (t : Except String Int) (role : String) (d : Int),
      role ∈ v.roles →
      RemoveRoleFromAllCaches_perkey (singleEnv k v t) role d =
        ⟨1, none, [⟨k, { v with roles := v.roles.filter fun r => r ≠ role },
          ttlChoicePerkey t d⟩]⟩ ∧
      RemoveRoleFromAllCaches_mget (singleEnv k v t) role d =
        ⟨1, none, [⟨k, { v with roles := v.roles.filter fun r => r ≠ role },
          ttlChoiceMget t d⟩]⟩) ∧
    (∀ t d : Int, 0 < t → ttlChoicePerkey (.ok t) d = t ∧ ttlChoiceMget (.ok t) d = t) ∧
    (∀ d : Int, ttlChoicePerkey (.ok (-1)) d = d ∧ ttlChoicePerkey (.ok (-2)) d = d ∧
      ttlChoiceMget (.ok (-1)) d = 0 ∧ ttlChoiceMget (.ok (-2)) d = 0) ∧
    (∀ (e : String) (d : Int), 0 < d →
      ttlChoicePerkey (.error e) d = d ∧ ttlChoiceMget (.error e) d = d) := by
  refine ⟨?_, ?_, ?_, ?_, ?_, ?_, ?_, ?_⟩
  · intro env role d
    exact perkeyBatches_exp env role d env.batches 0 [] (by intro w hw; cases hw)
  · intro env role d
    exact mgetBatches_exp env role d env.batches 0 [] (by intro w hw; cases hw)
  · intro env jobID role d
    exact jobPerkeyBatches_exp env role d env.batches _ _ [] (by intro w hw; cases hw)
  · intro env jobID role d
    exact jobMgetBatches_exp env role d env.batches _ _ [] (by intro w hw; cases hw)
  · intro k v t role d h
    exact ⟨perkey_single_writes k v t role d h, mget_single_writes k v t role d h⟩
  · intro t d ht
    constructor
    · simp [ttlChoicePerkey, ht]
    · simp only [ttlChoiceMget]
      split_ifs <;> omega
  · intro d
    refine ⟨by simp [ttlChoicePerkey], by simp [ttlChoicePerkey], ?_, ?_⟩
    · simp only [ttlChoiceMget]
      split_ifs <;> omega
    · simp only [ttlChoiceMget]
      split_ifs <;> omega
  · intro e d hd
    constructor
    · simp [ttlChoicePerkey]
    · simp only [ttlChoiceMget]
      split_ifs <;> omega

/-- C1 witness: the amended theorem applied at concrete inputs — a concrete
write of the per-key pass has the per-key rule's expiration; a single-entry
store under the "key missing" sentinel is still rewritten; a positive TTL of
42 is reused; a TTL error falls back to the default 300. -/
theorem C1_amended_witness :
    ((⟨"roles:u1", ⟨["editor"], 7, "v1"⟩, (300 : Int)⟩ : WriteRec).exp =
      ttlChoicePerkey (envNoExpiry.ttl "roles:u1") 300) ∧
    ((⟨"roles:u1", ⟨["editor"], 7, "v1"⟩, (0 : Int)⟩ : WriteRec).exp =
      ttlChoiceMget (envNoExpiry.ttl "roles:u1") 300) ∧
    ((⟨"roles:u1", ⟨["editor"], 7, "v1"⟩, (300 : Int)⟩ : WriteRec).exp =
      ttlChoicePerkey (envNoExpiry.ttl "roles:u1") 300) ∧
    ((⟨"roles:u1", ⟨["editor"], 7, "v1"⟩, (0 : Int)⟩ : WriteRec).exp =
      ttlChoiceMget (envNoExpiry.ttl "roles:u1") 300) ∧
    (RemoveRoleFromAllCaches_perkey
        (singleEnv "roles:u9" ⟨["admin"], 0, "v1"⟩ (.ok (-2))) "admin" 300 =
      ⟨1, none, [⟨"roles:u9", ⟨(["admin"].filter fun r => r ≠ "admin"), 0, "v1"⟩,
        ttlChoicePerkey (.ok (-2)) 300⟩]⟩) ∧
    ttlChoicePerkey (.ok 42) 300 = 42 ∧
    ttlChoiceMget (.ok (-1)) 300 = 0 ∧
    ttlChoiceMget (.error "boom") 300 = 300 := by
  refine ⟨?_, ?_, ?_, ?_, ?_, ?_, ?_, ?_⟩
  · exact C1_amended_ttl_reapplication.1 envNoExpiry "admin" 300 _ (by decide)
  · exact C1_amended_ttl_reapplication.2.1 envNoExpiry "admin" 300 _ (by decide)
  · exact C1_amended_ttl_reapplication.2.2.1 envNoExpiry "job1" "admin" 300 _ (by decide)
  · exact C1_amended_ttl_reapplication.2.2.2.1 envNoExpiry "job1" "admin" 300 _ (by decide)
  · exact (C1_amended_ttl_reapplication.2.2.2.2.1 "roles:u9" ⟨["admin"], 0, "v1"⟩
      (.ok (-2)) "admin" 300 (by decide)).1
  · exact (C1_amended_ttl_reapplication.2.2.2.2.2.1 42 300 (by decide)).1
  · exact (C1_amended_ttl_reapplication.2.2.2.2.2.2.1 300).2.2.1
  · exact (C1_amended_ttl_reapplication.2.2.2.2.2.2.2 "boom" 300 (by decide)).2

/-- C10 is false as stated: on the same initial store holding one entry with
the "no expiration" TTL sentinel, the two variants return the same updated
count but write different per-entry expirations (default TTL vs none), so
they are not observationally equivalent. -/
theorem C10_counterexample_expirations_differ :
    (RemoveRoleFromAllCaches_perkey envNoExpiry "admin" 300).updated =
      (RemoveRoleFromAllCaches_mget envNoExpiry "admin" 300).updated ∧
    (RemoveRoleFromAllCaches_perkey envNoExpiry "admin" 300).writes ≠
      (RemoveRoleFromAllCaches_mget envNoExpiry "admin" 300).writes := by
  exact ⟨by decide, by decide⟩

/-- C10 amended: on an error-free store the two variants agree on the updated
count and on the rewritten keys and values, and each variant's job worker
performs exactly the writes of its synchronous pass — the MGET worker
additionally requiring that no non-final scan page be empty, since on such a
page its zero-key MGET fails the job while the synchronous passes and the
per-key worker just continue (concrete divergence included below); and the
per-entry expirations agree in general only when every TTL query returns a
positive remaining TTL — on the "no expiration" sentinel the per-key variant
applies the default TTL where the MGET variant preserves the absence of
expiration. -/
theorem C10_amended_variant_equivalence (env : Env) (jobID role : String) (d : Int)
    (hb : ∀ b ∈ env.batches, scanOk b = true)
    (hget : ∀ k, (env.get k).isErr = false)
    (hset : ∀ k, env.setRes k = none) :
    (RemoveRoleFromAllCaches_perkey env role d).updated =
      (RemoveRoleFromAllCaches_mget env role d).updated ∧
    (RemoveRoleFromAllCaches_perkey env role d).err = none ∧
    (RemoveRoleFromAllCaches_mget env role d).err = none ∧
    (RemoveRoleFromAllCaches_perkey env role d).writes.map (fun w => (w.key, w.val)) =
      (RemoveRoleFromAllCaches_mget env role d).writes.map (fun w => (w.key, w.val)) ∧
    (runRemoveRoleJob_perkey env jobID role d).final.status = "done" ∧
    (runRemoveRoleJob_perkey env jobID role d).writes =
      (RemoveRoleFromAllCaches_perkey env role d).writes ∧
    (noZeroKeyMget env.batches →
      (runRemoveRoleJob_mget env jobID role d).final.status = "done" ∧
      (runRemoveRoleJob_mget env jobID role d).writes =
        (RemoveRoleFromAllCaches_mget env role d).writes ∧
      (runRemoveRoleJob_perkey env jobID role d).writes.map (fun w => (w.key, w.val)) =
        (runRemoveRoleJob_mget env jobID role d).writes.map (fun w => (w.key, w.val))) ∧
    ((∀ k, ∃ t, env.ttl k = .ok t ∧ 0 < t) →
      (RemoveRoleFromAllCaches_perkey env role d).writes =
        (RemoveRoleFromAllCaches_mget env role d).writes) ∧
    (RemoveRoleFromAllCaches_mget envEmptyMidPage "admin" 300).err = none ∧
    (runRemoveRoleJob_mget envEmptyMidPage "jx" "admin" 300).err = some mgetArityErr ∧
    (runRemoveRoleJob_mget envEmptyMidPage "jx" "admin" 300).final.status = "failed" := by
  have hP : RemoveRoleFromAllCaches_perkey env role d =
      ⟨(passWrites env role (perkeyExp env d) (scanKeys env.batches)).length, none,
        passWrites env role (perkeyExp env d) (scanKeys env.batches)⟩ := by
    have h := perkeyBatches_noerr env role d hget hset env.batches hb 0 []
    simpa [RemoveRoleFromAllCaches_perkey] using h
  have hM : RemoveRoleFromAllCaches_mget env role d =
      ⟨(passWrites env role (mgetExp env d) (scanKeys env.batches)).length, none,
        passWrites env role (mgetExp env d) (scanKeys env.batches)⟩ := by
    have h := mgetBatches_noerr env role d hget hset env.batches hb 0 []
    simpa [RemoveRoleFromAllCaches_mget] using h
  have hJP := jobPerkeyBatches_writes env role d hget hset env.batches hb
    ⟨jobID, role, 0, 0, "running", 0, none, ""⟩ [⟨jobID, role, 0, 0, "running", 0, none, ""⟩] []
  have hJPw : (runRemoveRoleJob_perkey env jobID role d).writes =
      passWrites env role (perkeyExp env d) (scanKeys env.batches) := by
    simpa [runRemoveRoleJob_perkey] using hJP.1
  have hstrip := passWrites_strip env role (perkeyExp env d) (mgetExp env d) (scanKeys env.batches)
  refine ⟨?_, ?_, ?_, ?_, ?_, ?_, ?_, ?_, ?_, ?_, ?_⟩
  · rw [hP, hM]
    exact hstrip.2
  · rw [hP]
  · rw [hM]
  · rw [hP, hM]
    exact hstrip.1
  · simpa [runRemoveRoleJob_perkey] using hJP.2.2
  · rw [hJPw, hP]
  · intro hnz
    have hJM := jobMgetBatches_writes env role d hget hset env.batches hb hnz
      ⟨jobID, role, 0, 0, "running", 0, none, ""⟩ [⟨jobID, role, 0, 0, "running", 0, none, ""⟩] []
    have hJMw : (runRemoveRoleJob_mget env jobID role d).writes =
        passWrites env role (mgetExp env d) (scanKeys env.batches) := by
      simpa [runRemoveRoleJob_mget] using hJM.1
    refine ⟨?_, ?_, ?_⟩
    · simpa [runRemoveRoleJob_mget] using hJM.2.2
    · rw [hJMw, hM]
    · rw [hJPw, hJMw]
      exact hstrip.1
  · intro hpos
    have hpe : ∀ k, perkeyExp env d k = mgetExp env d k := by
      intro k
      obtain ⟨t, ht, htpos⟩ := hpos k
      simp only [perkeyExp, mgetExp, ttlChoicePerkey, ttlChoiceMget, ht]
      split_ifs <;> omega
    rw [hP, hM]
    simp only []
    exact passWrites_congr env role hpe (scanKeys env.batches)
  · decide
  · decide
  · decide

/-- Environment with two cached entries both containing "admin", every TTL
query answering a positive remaining TTL. -/
def envEquiv : Env :=
  { batches := [.ok ["roles:a", "roles:b"]]
    get := fun _ => .good ⟨["admin", "x"], 1, "v1"⟩
    ttl := fun _ => .ok 42
    setRes := fun _ => none }

/-- C10 witness: the amended equivalence applied to a concrete error-free
store with positive TTLs everywhere and no empty scan page — counts agree,
the pass writes coincide exactly, and the MGET worker reproduces its pass's
writes. -/
theorem C10_amended_witness :
    (RemoveRoleFromAllCaches_perkey envEquiv "admin" 300).updated =
      (RemoveRoleFromAllCaches_mget envEquiv "admin" 300).updated ∧
    (RemoveRoleFromAllCaches_perkey envEquiv "admin" 300).writes =
      (RemoveRoleFromAllCaches_mget envEquiv "admin" 300).writes ∧
    (runRemoveRoleJob_mget envEquiv "jw" "admin" 300).writes =
      (RemoveRoleFromAllCaches_mget envEquiv "admin" 300).writes := by
  have h := C10_amended_variant_equivalence envEquiv "jw" "admin" 300
    (by decide) (fun _ => rfl) (fun _ => rfl)
  exact ⟨h.1, h.2.2.2.2.2.2.2.1 (fun k => ⟨42, rfl, by decide⟩),
    (h.2.2.2.2.2.2.1 ⟨Or.inr rfl, trivial⟩).2.1⟩

/-- C7: the trip predicate of the breaker holds exactly when consecutive
failures reached 5, or at least 10 requests were seen in the rolling interval
with a failure rate above one half; and from a fresh breaker, 5 consecutive
upstream failures all issue requests, leave the breaker open, and the 6th call
is rejected fast without running the wrapped call. -/
theorem C7_breaker_trip_and_fail_fast :
    (∀ c : Counts, readyToTrip c = true ↔
        (5 ≤ c.consecutiveFailures ∨ (10 ≤ c.requests ∧ 2 * c.totalFailures > c.requests))) ∧
    (Breaker.fresh.run [true, true, true, true, true]).2 =
      [.ran true, .ran true, .ran true, .ran true, .ran true] ∧
    (Breaker.fresh.run [true, true, true, true, true]).1.state = .opened ∧
    ((Breaker.fresh.run [true, true, true, true, true]).1.execute true).2 = .rejected := by
  refine ⟨fun c => ?_, by decide, by decide, by decide⟩
  unfold readyToTrip
  split_ifs with h1 h2
  · simp [h1]
  · simp [h1, h2]
  · simp [h1, h2]

end Authz
